import Mathlib

/-!
# Verification of the TavernAI order-line classification engine

Shallow embedding of `backend/app/nlp.py` and the fuzzy menu matcher of
`backend/app/main.py`.  Strings are modelled as lists of `MChar`, a character
model rich enough for the Unicode operations the source uses (lowercasing,
NFD decomposition / accent stripping, `isalnum` / `isspace` classification).
Numeric quantities, prices and match scores are modelled as rationals.
-/

set_option maxHeartbeats 1000000

/-- Character model.  A `letter` carries the codepoint of its lowercase base
form, an uppercase flag and an optional combining accent (so that NFD
decomposition and `unicodedata.combining` can be modelled); `digit` carries the
digit value; `space` carries the kind of whitespace (0 = blank, 1 = newline,
2 = tab, 3 = carriage return); `punct` carries a codepoint; `combining` is a
lone combining mark. -/
inductive MChar where
  | letter (base : Nat) (upper : Bool) (accent : Option Nat)
  | digit (d : Nat)
  | space (k : Nat)
  | punct (p : Nat)
  | combining (m : Nat)
deriving DecidableEq

/-- `str.lower()` on a single character. -/
def toLowerChar : MChar → MChar
  | .letter b _ a => .letter b false a
  | c => c

/-- `ch.isalnum()`. -/
def isAlnumB : MChar → Bool
  | .letter _ _ _ => true
  | .digit _ => true
  | _ => false

/-- `ch.isspace()`. -/
def isSpaceB : MChar → Bool
  | .space _ => true
  | _ => false

/-- `unicodedata.combining(ch) != 0`. -/
def isCombB : MChar → Bool
  | .combining _ => true
  | _ => false

/-- `ch.isdigit()` (as used through `\d` in the quantity regexes). -/
def isDigitB : MChar → Bool
  | .digit _ => true
  | _ => false

/-- NFD decomposition of a single character: an accented letter splits into
its base letter followed by the combining mark; everything else is stable. -/
def nfdChar : MChar → List MChar
  | .letter b u (some a) => [.letter b u none, .combining a]
  | c => [c]

/-- The plain blank character `' '`. -/
def sp : MChar := .space 0

/-- The newline character `'\n'`. -/
def nl : MChar := .space 1

/-- `str.lower()` on a string. -/
def toLowerStr (s : List MChar) : List MChar := s.map toLowerChar

/-- `_strip_accents`: NFD-decompose, then drop all combining marks. -/
def stripAccents (s : List MChar) : List MChar :=
  (s.flatMap nfdChar).filter (fun c => !isCombB c)

/-- Drop trailing whitespace (the right half of `str.strip()`). -/
def dropTrailingWs : List MChar → List MChar
  | [] => []
  | c :: rest =>
    let r := dropTrailingWs rest
    if r = [] then (if isSpaceB c then [] else [c]) else c :: r

/-- `str.strip()`. -/
def pyStrip (s : List MChar) : List MChar :=
  dropTrailingWs (s.dropWhile (fun c => isSpaceB c))

/-- `re.sub(r"\s+", " ", s)`: collapse every maximal whitespace run into a
single blank. -/
def squeezeWs : List MChar → List MChar
  | [] => []
  | [c] => if isSpaceB c then [sp] else [c]
  | c :: d :: rest =>
    if isSpaceB c then
      if isSpaceB d then squeezeWs (d :: rest)
      else sp :: squeezeWs (d :: rest)
    else c :: squeezeWs (d :: rest)

/-- Characters kept by `_normalize_text_basic`: alphanumeric or whitespace. -/
def keepB (c : MChar) : Bool := isAlnumB c || isSpaceB c

/-- `_normalize_text_basic`: strip, lowercase, strip accents, drop everything
that is not alphanumeric or whitespace, collapse whitespace, strip. -/
def normalizeTextBasic (s : List MChar) : List MChar :=
  if s = [] then []
  else
    let s2 := stripAccents (toLowerStr (pyStrip s))
    let s3 := s2.filter keepB
    pyStrip (squeezeWs s3)

/-- Accent an (accent-free) letter with the acute combining mark U+0301. -/
def acc : MChar → MChar
  | .letter b u _ => .letter b u (some 769)
  | c => c

/-- Accent a letter with the diaeresis combining mark U+0308. -/
def dia : MChar → MChar
  | .letter b u _ => .letter b u (some 776)
  | c => c

/-- α -/
def ga : MChar := .letter 945 false none
/-- β -/
def gb : MChar := .letter 946 false none
/-- γ -/
def gg : MChar := .letter 947 false none
/-- δ -/
def gd : MChar := .letter 948 false none
/-- ε -/
def ge : MChar := .letter 949 false none
/-- ζ -/
def gz : MChar := .letter 950 false none
/-- η -/
def gh : MChar := .letter 951 false none
/-- θ -/
def gth : MChar := .letter 952 false none
/-- ι -/
def gi : MChar := .letter 953 false none
/-- κ -/
def gk : MChar := .letter 954 false none
/-- λ -/
def gl : MChar := .letter 955 false none
/-- μ -/
def gm : MChar := .letter 956 false none
/-- ν -/
def gn : MChar := .letter 957 false none
/-- ξ -/
def gx : MChar := .letter 958 false none
/-- ο -/
def go : MChar := .letter 959 false none
/-- π -/
def gp : MChar := .letter 960 false none
/-- ρ -/
def gr : MChar := .letter 961 false none
/-- σ -/
def gs : MChar := .letter 963 false none
/-- ς (final sigma) -/
def gsf : MChar := .letter 962 false none
/-- τ -/
def gt : MChar := .letter 964 false none
/-- υ -/
def gu : MChar := .letter 965 false none
/-- φ -/
def gf : MChar := .letter 966 false none
/-- χ -/
def gch : MChar := .letter 967 false none
/-- ψ -/
def gps : MChar := .letter 968 false none
/-- ω -/
def gw : MChar := .letter 969 false none

def xa : MChar := .letter 97 false none
def xb : MChar := .letter 98 false none
def xc : MChar := .letter 99 false none
def xd : MChar := .letter 100 false none
def xe : MChar := .letter 101 false none
def xf : MChar := .letter 102 false none
def xg : MChar := .letter 103 false none
def xh : MChar := .letter 104 false none
def xi : MChar := .letter 105 false none
def xj : MChar := .letter 106 false none
def xk : MChar := .letter 107 false none
def xl : MChar := .letter 108 false none
def xm : MChar := .letter 109 false none
def xn : MChar := .letter 110 false none
def xo : MChar := .letter 111 false none
def xp : MChar := .letter 112 false none
def xq : MChar := .letter 113 false none
def xr : MChar := .letter 114 false none
def xs : MChar := .letter 115 false none
def xt : MChar := .letter 116 false none
def xu : MChar := .letter 117 false none
def xv : MChar := .letter 118 false none
def xw : MChar := .letter 119 false none
def xx : MChar := .letter 120 false none
def xy : MChar := .letter 121 false none
def xz : MChar := .letter 122 false none

def n0 : MChar := .digit 0
def n1 : MChar := .digit 1
def n2 : MChar := .digit 2
def n3 : MChar := .digit 3
def n4 : MChar := .digit 4
def n5 : MChar := .digit 5
def n6 : MChar := .digit 6
def n7 : MChar := .digit 7
def n8 : MChar := .digit 8
def n9 : MChar := .digit 9

/-- `'('` -/
def lpar : MChar := .punct 40
/-- `')'` -/
def rpar : MChar := .punct 41
/-- `'.'` -/
def dotc : MChar := .punct 46

/-- `needle` is a prefix of `hay` (`str.startswith`). -/
def leadsWith : List MChar → List MChar → Bool
  | [], _ => true
  | _ :: _, [] => false
  | a :: as, b :: bs => a == b && leadsWith as bs

/-- Python's substring test `needle in hay`. -/
def containsSub (needle : List MChar) : List MChar → Bool
  | [] => needle.isEmpty
  | c :: t => leadsWith needle (c :: t) || containsSub needle t

/-- `str.split()`: split on whitespace runs, dropping empty pieces. -/
def splitWsGo (acc : List MChar) : List MChar → List (List MChar)
  | [] => if acc = [] then [] else [acc.reverse]
  | c :: rest =>
    if isSpaceB c then
      if acc = [] then splitWsGo [] rest else acc.reverse :: splitWsGo [] rest
    else splitWsGo (c :: acc) rest

def splitWs (s : List MChar) : List (List MChar) := splitWsGo [] s

/-- `" ".join(ws)`. -/
def joinSp : List (List MChar) → List MChar
  | [] => []
  | [w] => w
  | w :: ws => w ++ sp :: joinSp ws

/-- `str.splitlines()` (modelled as splitting on newline characters). -/
def splitOnNl : List MChar → List (List MChar)
  | [] => [[]]
  | c :: rest =>
    if c = nl then [] :: splitOnNl rest
    else
      match splitOnNl rest with
      | [] => [[c]]
      | l :: ls => (c :: l) :: ls

def splitLines (s : List MChar) : List (List MChar) :=
  if s = [] then []
  else
    let r := splitOnNl s
    if r.getLast? = some [] then r.dropLast else r

/-- Python `dict` assignment `d[k] = v`: overwrite in place or append. -/
def dictInsert (k : List MChar) (v : α) : List (List MChar × α) → List (List MChar × α)
  | [] => [(k, v)]
  | (k', v') :: rest => if k' = k then (k, v) :: rest else (k', v') :: dictInsert k v rest

/-- Python `d.setdefault(k, v)`: insert only when the key is absent. -/
def dictSetdefault (k : List MChar) (v : α) (d : List (List MChar × α)) :
    List (List MChar × α) :=
  if (d.find? (fun kv => kv.1 = k)).isSome then d else d ++ [(k, v)]

/-- Python `d.get(k)`. -/
def dictGet (k : List MChar) : List (List MChar × α) → Option α
  | [] => none
  | (k', v) :: rest => if k' = k then some v else dictGet k rest

/-- `str.endswith(suffix)`. -/
def endsWithB (suffix s : List MChar) : Bool :=
  leadsWith suffix.reverse s.reverse

/-- `_greek_stem`: strip the common Greek plural endings ια / ες / οι. -/
def greekStem (word : List MChar) : List MChar :=
  if word = [] then word
  else if endsWithB [gi, ga] word ∧ word.length > 3 then word.dropLast
  else if endsWithB [ge, gsf] word ∧ word.length > 3 then word.dropLast.dropLast
  else if endsWithB [go, gi] word ∧ word.length > 3 then
    word.dropLast.dropLast ++ [go, gsf]
  else word

/-- The unit tokens of the quantity regex, in the alternation order
`λτ|λ|lt|l|kg|κιλα|κιλο|κ|ml`. -/
inductive UnitTok where
  | uLamTau | uLam | uLt | uL | uKg | uKila | uKilo | uKappa | uMl
deriving DecidableEq

/-- The (lowercase) characters of a unit token. -/
def tokStr : UnitTok → List MChar
  | .uLamTau => [gl, gt]
  | .uLam => [gl]
  | .uLt => [xl, xt]
  | .uL => [xl]
  | .uKg => [xk, xg]
  | .uKila => [gk, gi, gl, ga]
  | .uKilo => [gk, gi, gl, go]
  | .uKappa => [gk]
  | .uMl => [xm, xl]

/-- The regex alternation order of the unit tokens. -/
def unitAlts : List UnitTok :=
  [.uLamTau, .uLam, .uLt, .uL, .uKg, .uKila, .uKilo, .uKappa, .uMl]

/-- Match a token at the start of the input, case-insensitively
(`re.IGNORECASE`); returns the rest on success. -/
def matchTokCI : List MChar → List MChar → Option (List MChar)
  | [], rest => some rest
  | _ :: _, [] => none
  | a :: as, b :: bs => if toLowerChar b = a then matchTokCI as bs else none

/-- Scan the leading `\d+(?:\.\d+)?` group; returns the matched characters and
the rest of the input. -/
def scanNumber (s : List MChar) : Option (List MChar × List MChar) :=
  let d1 := s.takeWhile isDigitB
  let r1 := s.dropWhile isDigitB
  if d1 = [] then none
  else
    match r1 with
    | [] => some (d1, [])
    | c :: r2 =>
      if c = dotc then
        let d2 := r2.takeWhile isDigitB
        if d2 = [] then some (d1, r1)
        else some (d1 ++ dotc :: d2, r2.dropWhile isDigitB)
      else some (d1, r1)

/-- The continuation `\s+(.+)$` of the quantity regexes on a stripped input:
at least one whitespace character, then a nonempty remainder that contains no
newline (`.` does not match a newline); returns the remainder. -/
def contOK (rest : List MChar) : Option (List MChar) :=
  let w := rest.takeWhile isSpaceB
  let r := rest.dropWhile isSpaceB
  if w ≠ [] ∧ r ≠ [] ∧ nl ∉ r then some r else none

/-- Try the unit alternatives in regex order (each followed by the
continuation), then the empty-unit branch. -/
def tryUnitsFrom : List UnitTok → List MChar → Option (Option UnitTok × List MChar)
  | [], rest => (contOK rest).map (fun r => ((none : Option UnitTok), r))
  | tok :: toks, rest =>
    match matchTokCI (tokStr tok) rest with
    | some rest2 =>
      match contOK rest2 with
      | some r => some (some tok, r)
      | none => tryUnitsFrom toks rest
    | none => tryUnitsFrom toks rest

def digitVal : MChar → Nat
  | .digit d => d
  | _ => 0

def digitsToNat (l : List MChar) : Nat :=
  l.foldl (fun n c => 10 * n + digitVal c) 0

/-- `float(s)` restricted to the shapes `\d+` and `\d+.\d+` produced by the
quantity regexes; `none` models an exception. -/
def strToQ (s : List MChar) : Option ℚ :=
  let d1 := s.takeWhile isDigitB
  let r1 := s.dropWhile isDigitB
  if d1 = [] then none
  else
    match r1 with
    | [] => some (digitsToNat d1 : ℚ)
    | c :: r2 =>
      if c = dotc then
        let d2 := r2.takeWhile isDigitB
        if d2 = [] then none
        else if r2.dropWhile isDigitB = [] then
          some ((digitsToNat d1 : ℚ) + (digitsToNat d2 : ℚ) / ((10 : ℚ) ^ d2.length))
        else none
      else none

/-- `_parse_quantity_and_units`, with `none` modelling a raised exception
(the only fallible step is the `float` conversion).  Mirrors the two regex
patterns: number + optional glued unit + whitespace + item text, else number +
whitespace + item text, else the no-quantity fallback. -/
def parseQuantityAndUnitsOpt (input : List MChar) :
    Option (Option ℚ × Option UnitTok × Option ℚ × List MChar) :=
  let s := pyStrip input
  match scanNumber s with
  | none => some (none, none, none, s)
  | some (numStr, rest) =>
    match tryUnitsFrom unitAlts rest with
    | none => some (none, none, none, s)
    | some (u, r) =>
      match strToQ numStr with
      | none => none
      | some q =>
        let um : Option ℚ :=
          match u with
          | some .uLam | some .uLamTau | some .uLt | some .uL => some q
          | some .uKg | some .uKappa | some .uKila | some .uKilo => some q
          | some .uMl => some (q / 250)
          | none => none
        some (some q, u, um, pyStrip r)

/-- Total wrapper of the parser (the exception branch is unreachable, see the
totality theorem below). -/
def parseQuantityAndUnits (input : List MChar) :
    Option ℚ × Option UnitTok × Option ℚ × List MChar :=
  (parseQuantityAndUnitsOpt input).getD (none, none, none, pyStrip input)

/-- State machine for `_extract_parentheses`: walk the text; outside a group,
a `(` opens a buffer; inside, the first `)` closes the group (which is
replaced by a blank in the base text and collected verbatim); an unclosed `(`
is literal text. -/
def epGo : List MChar → Option (List MChar) → List MChar × List (List MChar)
  | [], none => ([], [])
  | [], some buf => (lpar :: buf.reverse, [])
  | c :: rest, none =>
    if c = lpar then epGo rest (some [])
    else
      let (b, gs) := epGo rest none
      (c :: b, gs)
  | c :: rest, some buf =>
    if c = rpar then
      let (b, gs) := epGo rest none
      (sp :: b, (lpar :: (buf.reverse ++ [rpar])) :: gs)
    else epGo rest (some (c :: buf))

/-- `_extract_parentheses`: returns the base text with `(...)` spans removed
(whitespace collapsed) and the joined parenthetical contents; with no span the
input is merely stripped. -/
def extractParens (text : List MChar) : List MChar × List MChar :=
  if text = [] then ([], [])
  else
    let (b, gs) := epGo text none
    if gs = [] then (pyStrip text, [])
    else (pyStrip (squeezeWs b), joinSp gs)

/-- Station categories produced by `_categorize_raw`. -/
inductive Cat where
  | grill | drinks | kitchen
deriving DecidableEq

/-- A value of `MENU_ITEMS`: `{id, name, price, category}`. -/
structure MenuEntry where
  id : Option (List MChar)
  name : List MChar
  price : Option ℚ
  category : Option Cat
deriving DecidableEq

/-- A raw `menu.json` entry in the category→items mapping: either a bare
string or an object with optional name/title/id/price/category fields. -/
inductive RawEntry where
  | rstr (s : List MChar)
  | robj (name title id : Option (List MChar)) (price : Option ℚ)
      (category : Option (List MChar))
deriving DecidableEq

/-- The module-level state of `app.nlp` after loading a menu: `MENU_ITEMS`
plus the three classification stem sets. -/
structure NlpState where
  menuItems : List (List MChar × MenuEntry)
  grillSet : List (List MChar)
  drinkSet : List (List MChar)
  kitchenSet : List (List MChar)
deriving DecidableEq

/-- `set.add` (sets modelled as duplicate-free insertion lists). -/
def setAdd (x : List MChar) (s : List (List MChar)) : List (List MChar) :=
  if x ∈ s then s else s ++ [x]

/-- `x or y` on Python strings: `x` when truthy (nonempty), else `y`. -/
def pyOrS : Option (List MChar) → List MChar → List MChar
  | some s, dflt => if s = [] then dflt else s
  | none, dflt => dflt

/-- GRILL_STEMS: μπριζολ παϊδ παϊδά μπριζόλ μπριζο μπιφτεκ μπιφτέκ λουκαν
χοιριν μπουτι σνιτσελ σουβλα παϊδάκ μπεικον -/
def grillStems : List (List MChar) :=
  [[gm, gp, gr, gi, gz, go, gl],
   [gp, ga, dia gi, gd],
   [gp, ga, dia gi, gd, acc ga],
   [gm, gp, gr, gi, gz, acc go, gl],
   [gm, gp, gr, gi, gz, go],
   [gm, gp, gi, gf, gt, ge, gk],
   [gm, gp, gi, gf, gt, acc ge, gk],
   [gl, go, gu, gk, ga, gn],
   [gch, go, gi, gr, gi, gn],
   [gm, gp, go, gu, gt, gi],
   [gs, gn, gi, gt, gs, ge, gl],
   [gs, go, gu, gb, gl, ga],
   [gp, ga, dia gi, gd, acc ga, gk],
   [gm, gp, ge, gi, gk, go, gn]]

/-- KITCHEN_STEMS: φούρν τηγαν ραγού σουπα σάλτ μπεσαμ γκρατεν ομελετ παστ -/
def kitchenStems : List (List MChar) :=
  [[gf, go, acc gu, gr, gn],
   [gt, gh, gg, ga, gn],
   [gr, ga, gg, go, acc gu],
   [gs, go, gu, gp, ga],
   [gs, acc ga, gl, gt],
   [gm, gp, ge, gs, ga, gm],
   [gg, gk, gr, ga, gt, ge, gn],
   [go, gm, ge, gl, ge, gt],
   [gp, ga, gs, gt]]

/-- DRINK_STEMS: μπύρ μπυρ ουζ κρασ ποτο τσιπουρ τσίπουρ αναψυκ νερ χυμ -/
def drinkStems : List (List MChar) :=
  [[gm, gp, acc gu, gr],
   [gm, gp, gu, gr],
   [go, gu, gz],
   [gk, gr, ga, gs],
   [gp, go, gt, go],
   [gt, gs, gi, gp, go, gu, gr],
   [gt, gs, acc gi, gp, go, gu, gr],
   [ga, gn, ga, gps, gu, gk],
   [gn, ge, gr],
   [gch, gu, gm]]

/-- `_norm_list_to_set`: normalize each stem and collect the nonempty ones. -/
def normListToSet (lst : List (List MChar)) : List (List MChar) :=
  lst.foldl (fun s item =>
    let n := normalizeTextBasic item
    if n = [] then s else setAdd n s) []

/-- "grill" -/
def sGrill : List MChar := [xg, xr, xi, xl, xl]
/-- "γρίλ" -/
def sGrila : List MChar := [gg, gr, acc gi, gl]
/-- "ψή" -/
def sPsiAcc : List MChar := [gps, acc gh]
/-- "ψητ" -/
def sPsit : List MChar := [gps, gh, gt]
/-- "gril" -/
def sGril : List MChar := [xg, xr, xi, xl]
/-- "σχάρ" -/
def sSxarAcc : List MChar := [gs, gch, acc ga, gr]
/-- "drink" -/
def sDrink : List MChar := [xd, xr, xi, xn, xk]
/-- "drinks" -/
def sDrinks : List MChar := [xd, xr, xi, xn, xk, xs]
/-- "beer" -/
def sBeer : List MChar := [xb, xe, xe, xr]
/-- "beers" -/
def sBeers : List MChar := [xb, xe, xe, xr, xs]
/-- "μπυρ" -/
def sByr : List MChar := [gm, gp, gu, gr]
/-- "κρασ" -/
def sKras : List MChar := [gk, gr, ga, gs]
/-- "wine" -/
def sWine : List MChar := [xw, xi, xn, xe]
/-- "wines" -/
def sWines : List MChar := [xw, xi, xn, xe, xs]
/-- "spirits" -/
def sSpirits : List MChar := [xs, xp, xi, xr, xi, xt, xs]
/-- "spirit" -/
def sSpirit : List MChar := [xs, xp, xi, xr, xi, xt]
/-- "soft" -/
def sSoft : List MChar := [xs, xo, xf, xt]
/-- "αναψυκ" -/
def sAnapsyk : List MChar := [ga, gn, ga, gps, gu, gk]
/-- "ποτο" -/
def sPoto : List MChar := [gp, go, gt, go]
/-- "συ" -/
def sSy : List MChar := [gs, gu]
/-- "σχάρα" -/
def sSxaraAcc : List MChar := [gs, gch, acc ga, gr, ga]
/-- "σχαρ" -/
def sSxar : List MChar := [gs, gch, ga, gr]
/-- "ψη" -/
def sPsi : List MChar := [gps, gh]
/-- "κρασι" -/
def sKrasi : List MChar := [gk, gr, ga, gs, gi]
/-- "μπυρα" -/
def sByra : List MChar := [gm, gp, gu, gr, ga]
/-- "ουζο" -/
def sOuzo : List MChar := [go, gu, gz, go]
/-- "kitchen" -/
def sKitchen : List MChar := [xk, xi, xt, xc, xh, xe, xn]
/-- "κουζιν" -/
def sKouzin : List MChar := [gk, go, gu, gz, gi, gn]
/-- "special" -/
def sSpecial : List MChar := [xs, xp, xe, xc, xi, xa, xl]
/-- "φουρν" -/
def sFourn : List MChar := [gf, go, gu, gr, gn]

/-- `_categorize_raw`: classify a raw category string by substring
heuristics, in the source's branch order (duplicated checks included). -/
def categorizeRaw (catRaw : List MChar) : Option Cat :=
  if catRaw = [] then none
  else
    let s := normalizeTextBasic catRaw
    if containsSub sGrill s || containsSub sGrila s || containsSub sPsiAcc s ||
        containsSub sPsit s || containsSub sGril s || containsSub sSxarAcc s ||
        containsSub sGrill s then some .grill
    else if containsSub sDrink s || containsSub sDrinks s || containsSub sBeer s ||
        containsSub sByr s || containsSub sKras s || containsSub sWine s ||
        containsSub sWines s || containsSub sSpirits s || containsSub sSpirit s ||
        containsSub sBeers s || containsSub sSoft s || containsSub sAnapsyk s ||
        containsSub sPoto s || containsSub sDrinks s || containsSub sSy s then some .drinks
    else if containsSub sPsit s || containsSub sSxaraAcc s || containsSub sSxar s ||
        containsSub sPsi s then some .grill
    else if containsSub sKrasi s || containsSub sByra s || containsSub sOuzo s ||
        containsSub sPoto s || containsSub sAnapsyk s then some .drinks
    else if containsSub sKitchen s || containsSub sKouzin s || containsSub sSpecial s ||
        containsSub sFourn s then some .kitchen
    else some .kitchen

/-- The per-(topCat, entry) step of the `menu.json` dict-branch loader:
`none` when the entry is skipped (empty normalized name), otherwise the
`MENU_ITEMS` key/value it stores. -/
def pairEntry (p : List MChar × RawEntry) : Option (List MChar × MenuEntry) :=
  let name := match p.2 with
    | .rstr s => s
    | .robj nm ttl _ _ _ => pyOrS nm (pyOrS ttl [])
  let nn := normalizeTextBasic name
  if nn = [] then none
  else
    let entryId : Option (List MChar) := match p.2 with
      | .rstr _ => none
      | .robj _ _ i _ _ => i
    let entryPrice : Option ℚ := match p.2 with
      | .rstr _ => none
      | .robj _ _ _ pr _ => pr
    let entryCat : Option (List MChar) := match p.2 with
      | .rstr _ => none
      | .robj _ _ _ _ c => some (pyOrS c p.1)
    let cg0 : Option Cat := match entryCat with
      | some s => if s = [] then none else categorizeRaw s
      | none => none
    let cg : Option Cat := match cg0 with
      | none => categorizeRaw p.1
      | some c => some c
    some (nn, ⟨entryId, name, entryPrice, cg⟩)

/-- One iteration of the dict-branch loader body: store into `MENU_ITEMS`
and add the normalized name to the stem set of its guessed category. -/
def processEntry (topCat : List MChar) (e : RawEntry) (st : NlpState) : NlpState :=
  match pairEntry (topCat, e) with
  | none => st
  | some (nn, me) =>
    { menuItems := dictInsert nn me st.menuItems
      grillSet := if me.category = some .grill then setAdd nn st.grillSet else st.grillSet
      drinkSet := if me.category = some .drinks then setAdd nn st.drinkSet else st.drinkSet
      kitchenSet :=
        if me.category = some .grill ∨ me.category = some .drinks then st.kitchenSet
        else setAdd nn st.kitchenSet }

/-- The `menu.json` dict-branch loader (`nlp.py`, category → item list). -/
def loadMenuDict (menu : List (List MChar × List RawEntry)) (st : NlpState) : NlpState :=
  menu.foldl (fun st' tcItems =>
    tcItems.2.foldl (fun st'' e => processEntry tcItems.1 e st'') st') st

/-- The category → items mapping flattened to (topCat, entry) pairs in
iteration order. -/
def flattenMenu (menu : List (List MChar × List RawEntry)) : List (List MChar × RawEntry) :=
  menu.flatMap (fun tcItems => tcItems.2.map (fun e => (tcItems.1, e)))

/-- The module state at import time, before any menu is loaded. -/
def initState : NlpState :=
  { menuItems := []
    grillSet := normListToSet grillStems
    drinkSet := normListToSet drinkStems
    kitchenSet := normListToSet kitchenStems }

/-- `_contains_stem`: some nonempty stem is a substring of the text or
vice versa. -/
def containsStem (normText : List MChar) (stemSet : List (List MChar)) : Bool :=
  if normText = [] then false
  else stemSet.any (fun s =>
    if s = [] then false
    else containsSub s normText || containsSub normText s)

/-- `quantity or 1` on the optional parsed quantity. -/
def qOr1 : Option ℚ → ℚ
  | none => 1
  | some v => if v = 0 then 1 else v

/-- `quantity or 1` on a plain number. -/
def pyOrQ (q : ℚ) : ℚ := if q = 0 then 1 else q

/-- "κ " (the weight-priced name marker prefix) -/
def kgPrefix : List MChar := [gk, sp]
/-- "(1lt)" -/
def sz1lt : List MChar := [lpar, n1, xl, xt, rpar]
/-- "(1)" -/
def sz1 : List MChar := [lpar, n1, rpar]
/-- "(0.5)" -/
def szHalf : List MChar := [lpar, n0, dotc, n5, rpar]
/-- "(250)" -/
def sz250 : List MChar := [lpar, n2, n5, n0, rpar]
/-- "(500)" -/
def sz500 : List MChar := [lpar, n5, n0, n0, rpar]

/-- The weight unit family kg/κ/κιλα/κιλο. -/
def isKgUnit : Option UnitTok → Bool
  | some .uKg | some .uKappa | some .uKila | some .uKilo => true
  | _ => false

/-- The liter unit family λ/λτ/lt/l. -/
def isLiterUnit : Option UnitTok → Bool
  | some .uLam | some .uLamTau | some .uLt | some .uL => true
  | _ => false

def isMlUnit : Option UnitTok → Bool
  | some .uMl => true
  | _ => false

/-- The base item name of a menu entry: drop a "κ " prefix, and cut at the
first "(" when a parenthesized size spec is present. -/
def entryBaseName (menuName : List MChar) : List MChar :=
  let isKg := leadsWith kgPrefix menuName
  let hasSize := containsSub [lpar] menuName && containsSub [rpar] menuName
  let b0 := if isKg then menuName.drop 2 else menuName
  if hasSize then pyStrip (b0.takeWhile (fun c => c ≠ lpar)) else b0

/-- The unit-consistency score adjustment of `_find_menu_match_with_units`. -/
def unitAdjust (u : Option UnitTok) (quantity : ℚ) (menuName : List MChar) : ℚ :=
  if isKgUnit u then
    if leadsWith kgPrefix menuName then 1 else -(1/2)
  else if isLiterUnit u then
    if containsSub sz1lt menuName || containsSub sz1 menuName then 1
    else if containsSub szHalf menuName then -(3/10)
    else 0
  else if isMlUnit u then
    if containsSub sz250 menuName ∧ quantity ≥ 250 then 1
    else if containsSub sz500 menuName ∧ quantity ≥ 500 then 1
    else 0
  else
    if leadsWith kgPrefix menuName then -(1/2)
    else if containsSub sz1lt menuName then -(3/10)
    else 0

/-- Score one menu entry against the (normalized and stemmed) query, `none`
when no substring match is found in either direction. -/
def scoreMenuEntry (normInput stemmedInput : List MChar) (u : Option UnitTok)
    (quantity : ℚ) (menuName : List MChar) : Option ℚ :=
  let normBase := normalizeTextBasic (entryBaseName menuName)
  let stemmedMenu := joinSp ((splitWs normBase).map greekStem)
  let matchFound :=
    containsSub normInput normBase || containsSub normBase normInput ||
    containsSub stemmedInput stemmedMenu || containsSub stemmedMenu stemmedInput
  if matchFound then
    some ((min normInput.length normBase.length : ℚ) /
            (max normInput.length normBase.length : ℚ)
          + unitAdjust u quantity menuName)
  else none

/-- The best-candidate fold of `_find_menu_match_with_units` (strict
improvement only, so the first best survives ties). -/
def findBestWithUnits (st : NlpState) (itemText : List MChar) (u : Option UnitTok)
    (quantity : ℚ) : Option MenuEntry × ℚ :=
  let normInput := normalizeTextBasic itemText
  let stemmedInput := joinSp ((splitWs normInput).map greekStem)
  st.menuItems.foldl (fun best kv =>
    match scoreMenuEntry normInput stemmedInput u quantity kv.2.name with
    | some sc => if sc > best.2 then (some kv.2, sc) else best
    | none => best) (none, 0)

/-- The result record of `_find_menu_match_with_units`. -/
structure UnitMatch where
  menu_id : Option (List MChar)
  menu_name : Option (List MChar)
  price : Option ℚ
  category : Option Cat
  multiplier : ℚ
deriving DecidableEq

/-- The no-match result, with `multiplier = quantity or 1`. -/
def noUnitMatch (quantity : ℚ) : UnitMatch := ⟨none, none, none, none, pyOrQ quantity⟩

/-- `_find_menu_match_with_units`. -/
def findMenuMatchWithUnits (st : NlpState) (itemText : List MChar)
    (u : Option UnitTok) (quantity : ℚ) : UnitMatch :=
  let normInput := normalizeTextBasic itemText
  if normInput = [] then noUnitMatch quantity
  else
    match findBestWithUnits st itemText u quantity with
    | (some e, bestScore) =>
      if bestScore ≥ 3/10 then
        let mult : ℚ :=
          if isKgUnit u ∨ isLiterUnit u then quantity
          else if isMlUnit u then
            if containsSub sz250 e.name then quantity / 250
            else if containsSub sz500 e.name then quantity / 500
            else quantity / 1000
          else pyOrQ quantity
        ⟨e.id, some e.name, e.price, e.category, mult⟩
      else noUnitMatch quantity
    | (none, _) => noUnitMatch quantity

/-- The result record of `classify_order` for one line. -/
structure Classified where
  text : List MChar
  category : Cat
  menu_id : Option (List MChar)
  menu_name : Option (List MChar)
  price : Option ℚ
  multiplier : ℚ
deriving DecidableEq

/-- Python truthiness of the optional `menu_id` string. -/
def idTruthy : Option (List MChar) → Bool
  | none => false
  | some s => !s.isEmpty

/-- The body of the per-line loop of `classify_order` (no spaCy model
installed, so the lemmas fall back to the normalized text). -/
def classifyLine (st : NlpState) (ln : List MChar) : Classified :=
  let original := pyStrip ln
  let baseText := (extractParens original).1
  let parsed := parseQuantityAndUnits baseText
  let quantity := parsed.1
  let unit := parsed.2.1
  let itemText := parsed.2.2.2
  let norm := normalizeTextBasic itemText
  let lemmas := norm
  let menuMatch := findMenuMatchWithUnits st itemText unit (qOr1 quantity)
  let category :=
    if idTruthy menuMatch.menu_id ∧ menuMatch.category.isSome then
      menuMatch.category.getD .kitchen
    else
      if containsStem lemmas st.grillSet || containsStem norm st.grillSet then .grill
      else if containsStem lemmas st.drinkSet || containsStem norm st.drinkSet then .drinks
      else if containsStem lemmas st.kitchenSet || containsStem norm st.kitchenSet then .kitchen
      else .kitchen
  ⟨original, category, menuMatch.menu_id, menuMatch.menu_name, menuMatch.price,
    menuMatch.multiplier⟩

/-- `classify_order`: split into lines, keep the nonblank ones, classify
each. -/
def classifyOrder (st : NlpState) (orderText : List MChar) : List Classified :=
  ((splitLines orderText).filter (fun ln => pyStrip ln ≠ [])).map (classifyLine st)

/-- Modelled from the spec: `build_override_rules` (§4.6) is not present in
the source tree (only its callers in `main.py` are).  Input: correction
records `(rawText, correctedMenuId)` ordered newest first; output: a mapping
from normalized raw text to the most recent corrected menu id (later, i.e.
older, duplicates are discarded). -/
def buildOverrideRules (samples : List (List MChar × List MChar)) :
    List (List MChar × List MChar) :=
  samples.foldl (fun d s => dictSetdefault (normalizeTextBasic s.1) s.2 d) []

/-- The classified record produced by an override hit: the override's menu
entry is used directly, with the multiplier still taken from the quantity
parse. -/
def overrideRecord (e : MenuEntry) (mid : List MChar) (original : List MChar)
    (quantity : Option ℚ) (um : Option ℚ) : Classified :=
  ⟨original, e.category.getD .kitchen, some mid, some e.name, e.price,
    um.getD (qOr1 quantity)⟩

/-- Modelled from the spec: the override-aware per-line classification of
`classify_order(..., override_rules=...)` (§4.6): when the line's normalized
raw text has an override whose target menu id exists in the current menu
index, the matcher and category steps are skipped and the override's entry is
used directly; otherwise classification proceeds unchanged. -/
def classifyLineOv (st : NlpState) (rules : List (List MChar × List MChar))
    (ln : List MChar) : Classified :=
  let original := pyStrip ln
  match dictGet (normalizeTextBasic original) rules with
  | some mid =>
    match st.menuItems.find? (fun kv => kv.2.id = some mid) with
    | some kv =>
      let baseText := (extractParens original).1
      let parsed := parseQuantityAndUnits baseText
      overrideRecord kv.2 mid original parsed.1 parsed.2.2.1
    | none => classifyLine st ln
  | none => classifyLine st ln

/-- Modelled from the spec: `classify_order` with override rules. -/
def classifyOrderOv (st : NlpState) (rules : List (List MChar × List MChar))
    (orderText : List MChar) : List Classified :=
  ((splitLines orderText).filter (fun ln => pyStrip ln ≠ [])).map (classifyLineOv st rules)

/-- A `\w` word character in the punctuation regex of
`_normalize_text_for_match` (alphanumeric or underscore). -/
def isWordCharB (c : MChar) : Bool := isAlnumB c || c = .punct 95

/-- The alternation of `^\d+(?:\.\d+)?(λτ|λ|lt|l|kg|κιλα|κιλο|κ|ml)?\s+` after
the number: try each unit (requiring following whitespace), then no unit;
returns the text after the maximal whitespace run on success. -/
def stripQtyUnitsFrom : List UnitTok → List MChar → Option (List MChar)
  | [], rest =>
    if rest.takeWhile isSpaceB ≠ [] then some (rest.dropWhile isSpaceB) else none
  | tok :: toks, rest =>
    match matchTokCI (tokStr tok) rest with
    | some rest2 =>
      if rest2.takeWhile isSpaceB ≠ [] then some (rest2.dropWhile isSpaceB)
      else stripQtyUnitsFrom toks rest
    | none => stripQtyUnitsFrom toks rest

/-- `re.sub(quantity_pattern, '', text)`: drop a leading quantity (and glued
unit) prefix when the anchored pattern matches. -/
def stripQtyPattern (s : List MChar) : List MChar :=
  match scanNumber s with
  | none => s
  | some (_, rest) =>
    match stripQtyUnitsFrom unitAlts rest with
    | some r => r
    | none => s

/-- `_normalize_text_for_match` (`main.py`): strip, remove parentheses spans,
collapse whitespace, drop the quantity prefix, strip accents, lowercase,
replace non-word characters by blanks, collapse whitespace, strip. -/
def normalizeTextForMatch (s : List MChar) : List MChar :=
  if s = [] then []
  else
    let t0 := pyStrip s
    let t1 := pyStrip (squeezeWs (epGo t0 none).1)
    let t2 := stripQtyPattern t1
    let t3 := stripAccents t2
    let t4 := toLowerStr (pyStrip t3)
    let t5 := t4.map (fun c => if isWordCharB c || isSpaceB c then c else sp)
    pyStrip (squeezeWs t5)

/-- `_tokenize`: whitespace-split, dropping tokens of length ≤ 1. -/
def tokenizeM (s : List MChar) : List (List MChar) :=
  (splitWs s).filter (fun tok => tok.length > 1)

/-- Inner cell computation of the Levenshtein dynamic program of
`_levenshtein`: walks one row, carrying the diagonal value, the remainder of
the previous row and the last value written to the current row. -/
def levGo (cb : MChar) : Nat → List Nat → List MChar → Nat → List Nat
  | diag, pj :: prest, ca :: as, curLeft =>
    let v := min (pj + 1) (min (curLeft + 1) (diag + (if ca = cb then 0 else 1)))
    v :: levGo cb pj prest as v
  | _, _, [], _ => []
  | _, [], _ :: _, _ => []

/-- One row update of the Levenshtein dynamic program. -/
def levNextRow (a : List MChar) (cb : MChar) (prev : List Nat) : List Nat :=
  match prev with
  | [] => []
  | p0 :: prest => (p0 + 1) :: levGo cb p0 prest a (p0 + 1)

/-- `_levenshtein`: iterative edit distance with the equal / empty shortcuts
and the shorter-first swap of the source. -/
def levDist (a b : List MChar) : Nat :=
  if a = b then 0
  else if a.length = 0 then b.length
  else if b.length = 0 then a.length
  else
    let p := if a.length > b.length then (b, a) else (a, b)
    (p.2.foldl (fun row cb => levNextRow p.1 cb row)
      (List.range (p.1.length + 1))).getLastD 0

/-- Per-token-pair score: 1.0 on a prefix match either way, else the clamped
Levenshtein ratio. -/
def tokScore (ot mt : List MChar) : ℚ :=
  if leadsWith ot mt || leadsWith mt ot then 1
  else
    let maxL := max ot.length mt.length
    if maxL = 0 then 0
    else
      let r := 1 - (levDist ot mt : ℚ) / (maxL : ℚ)
      if r < 0 then 0 else r

/-- Best score of one order token against the menu tokens. -/
def bestTokScore (ot : List MChar) (menuToks : List (List MChar)) : ℚ :=
  menuToks.foldl (fun b mt => let t := tokScore ot mt; if t > b then t else b) 0

/-- Length of the common prefix of two strings (the `zip` loop). -/
def commonPrefLen : List MChar → List MChar → Nat
  | a :: as, b :: bs => if a = b then commonPrefLen as bs + 1 else 0
  | _, _ => 0

/-- The combined score of `_find_menu_price_for_name` for one normalized menu
name: 1.0 on a substring hit, else
`0.65·tokenScore + 0.25·fullLevRatio + 0.10·prefixBonus`. -/
def scorePlain (orderTokens : List (List MChar)) (norm menuNorm : List MChar) : ℚ :=
  if containsSub menuNorm norm || containsSub norm menuNorm then 1
  else
    let menuToks := match tokenizeM menuNorm with
      | [] => [menuNorm]
      | ts => ts
    let perTok := orderTokens.map (fun ot => bestTokScore ot menuToks)
    let tokenMatchScore := if perTok = [] then 0 else perTok.sum / (perTok.length : ℚ)
    let maxLen := max norm.length menuNorm.length
    let fullLev : ℚ :=
      if maxLen = 0 then 0
      else
        let r := 1 - (levDist norm menuNorm : ℚ) / (maxLen : ℚ)
        if r < 0 then 0 else r
    let prefixBonus : ℚ :=
      if maxLen = 0 then 0 else (commonPrefLen norm menuNorm : ℚ) / (maxLen : ℚ)
    (65 / 100) * tokenMatchScore + (25 / 100) * fullLev + (10 / 100) * prefixBonus

/-- The normalized menu mapping built inside `_find_menu_price_for_name`
(`setdefault`: first seen wins). -/
def buildNormalizedMenu (items : List (List MChar × MenuEntry)) :
    List (List MChar × MenuEntry) :=
  items.foldl (fun d kv =>
    let nk0 := normalizeTextForMatch kv.2.name
    let nk := if nk0 = [] then normalizeTextForMatch kv.1 else nk0
    dictSetdefault nk kv.2 d) []

/-- One step of the best-candidate loop of `_find_menu_price_for_name`
(longer menu name wins near-ties). -/
def plainBestStep (orderTokens : List (List MChar)) (norm : List MChar)
    (best : Option (List MChar) × ℚ) (kv : List MChar × MenuEntry) :
    Option (List MChar) × ℚ :=
  if kv.1 = [] then best
  else
    let score := scorePlain orderTokens norm kv.1
    if score > best.2 ∨
        (|score - best.2| < 1 / 1000000 ∧
          kv.1.length > (match best.1 with
            | some bk => bk.length
            | none => 0)) then
      (some kv.1, score)
    else best

/-- The (best key, best score) pair computed by `_find_menu_price_for_name`
over the normalized menu. -/
def plainBest (items : List (List MChar × MenuEntry)) (name : List MChar) :
    Option (List MChar) × ℚ :=
  let norm := normalizeTextForMatch name
  let normalizedMenu := buildNormalizedMenu items
  let orderTokens := match tokenizeM norm with
    | [] => [norm]
    | ts => ts
  normalizedMenu.foldl (plainBestStep orderTokens norm) (none, 0)

/-- `_find_menu_price_for_name` with the acceptance `THRESHOLD` as a
parameter (the source fixes it to 0.50). -/
def findMenuPriceForNameT (threshold : ℚ) (items : List (List MChar × MenuEntry))
    (name : List MChar) : Option ℚ × Option (List MChar) :=
  if name = [] then (none, none)
  else
    let norm := normalizeTextForMatch name
    if norm = [] then (none, none)
    else
      match plainBest items name with
      | (some bk, bestScore) =>
        if bk ≠ [] ∧ bestScore ≥ threshold then
          match dictGet bk (buildNormalizedMenu items) with
          | some entry => (entry.price, entry.id)
          | none => (none, none)
        else (none, none)
      | (none, _) => (none, none)

/-- `_find_menu_price_for_name` at its hard-coded `THRESHOLD = 0.50`. -/
def findMenuPriceForName (items : List (List MChar × MenuEntry))
    (name : List MChar) : Option ℚ × Option (List MChar) :=
  findMenuPriceForNameT (1 / 2) items name

/-- Demo menu: a single item named "abcde" with id "1" and price 5. -/
def menuAbcde : List (List MChar × List RawEntry) :=
  [([xc], [RawEntry.robj (some [xa, xb, xc, xd, xe]) none (some [n1]) (some 5) none])]

/-- The module state after loading `menuAbcde`. -/
def stAbcde : NlpState := loadMenuDict menuAbcde initState

/-- Demo menu: a single item named "x (250)" with id "1" and price 5. -/
def menuX250 : List (List MChar × List RawEntry) :=
  [([xc], [RawEntry.robj (some [xx, sp, lpar, n2, n5, n0, rpar]) none (some [n1]) (some 5) none])]

/-- The module state after loading `menuX250`. -/
def stX250 : NlpState := loadMenuDict menuX250 initState

/-- Demo menu with two items whose names normalize to the same key "ab":
first "Ab" (id "1", price 3), then "AB" (id "2", price 4). -/
def menuDupAb : List (List MChar × List RawEntry) :=
  [([xc],
    [RawEntry.robj (some [MChar.letter 97 true none, xb]) none (some [n1]) (some 3) none,
     RawEntry.robj (some [MChar.letter 97 true none, MChar.letter 98 true none]) none
       (some [n2]) (some 4) none])]

/-- Demo correction samples for the override rules: the raw text "ab" was
corrected to menu id "1". -/
def demoSamples : List (List MChar × List MChar) := [([xa, xb], [n1])]

/-- The pre-adjustment similarity score of `_find_menu_match_with_units`:
`min(len)/max(len)` over the normalized query and the normalized base menu
name. -/
def baseSimRatio (normInput menuName : List MChar) : ℚ :=
  let normBase := normalizeTextBasic (entryBaseName menuName)
  (min normInput.length normBase.length : ℚ) / (max normInput.length normBase.length : ℚ)

/-- The shape invariant of whitespace-collapsed text: every whitespace
character is the plain blank and no two adjacent characters are both
whitespace. -/
def goodWs : List MChar → Prop
  | [] => True
  | [c] => isSpaceB c = true → c = sp
  | c :: d :: rest => (isSpaceB c = true → (c = sp ∧ isSpaceB d = false)) ∧ goodWs (d :: rest)

/-! ## Theorems -/

attribute [local semireducible] Rat.mul Rat.inv Rat.add Rat.sub Rat.ofScientific

theorem takeWhile_append_stop {α : Type _} {p : α → Bool} {d : List α} {x : α} {r : List α}
    (hd : ∀ c ∈ d, p c = true) (hx : p x = false) :
    (d ++ x :: r).takeWhile p = d := by
  rw [List.takeWhile_append]
  rw [List.takeWhile_eq_self_iff.mpr hd]
  simp [List.takeWhile_cons, hx]

theorem dropWhile_append_stop {α : Type _} {p : α → Bool} {d : List α} {x : α} {r : List α}
    (hd : ∀ c ∈ d, p c = true) (hx : p x = false) :
    (d ++ x :: r).dropWhile p = x :: r := by
  rw [List.dropWhile_append]
  rw [List.dropWhile_eq_nil_iff.mpr hd]
  simp [List.dropWhile_cons, hx]

theorem takeWhile_nil_of_head {α : Type _} {p : α → Bool} {l : List α}
    (h : ∀ c, l.head? = some c → p c = false) : l.takeWhile p = [] := by
  cases l with
  | nil => rfl
  | cons c t => simp [List.takeWhile_cons, h c rfl]

theorem strToQ_all_digits {d : List MChar} (hne : d ≠ [])
    (hd : ∀ c ∈ d, isDigitB c = true) :
    strToQ d = some (digitsToNat d : ℚ) := by
  unfold strToQ
  rw [List.takeWhile_eq_self_iff.mpr hd, List.dropWhile_eq_nil_iff.mpr hd]
  simp [hne]

theorem strToQ_digits_frac {d1 d2 : List MChar} (h1 : d1 ≠ [])
    (hd1 : ∀ c ∈ d1, isDigitB c = true) (h2 : d2 ≠ [])
    (hd2 : ∀ c ∈ d2, isDigitB c = true) :
    (strToQ (d1 ++ dotc :: d2)).isSome := by
  simp only [strToQ]
  rw [takeWhile_append_stop hd1 (by rfl), dropWhile_append_stop hd1 (by rfl)]
  simp [h1, h2, List.takeWhile_eq_self_iff.mpr hd2, List.dropWhile_eq_nil_iff.mpr hd2]

theorem strToQ_isSome_of_scan {x numStr rest : List MChar}
    (h : scanNumber x = some (numStr, rest)) : (strToQ numStr).isSome := by
  simp only [scanNumber] at h
  by_cases hd1 : x.takeWhile isDigitB = []
  · simp [hd1] at h
  · have hall : ∀ c ∈ x.takeWhile isDigitB, isDigitB c = true :=
      fun c hc => List.mem_takeWhile_imp hc
    cases hr : x.dropWhile isDigitB with
    | nil =>
      simp [hd1, hr] at h
      rw [← h.1, strToQ_all_digits hd1 hall]
      rfl
    | cons c r2 =>
      by_cases hc : c = dotc
      · by_cases hd2 : r2.takeWhile isDigitB = []
        · simp [hd1, hr, hc, hd2] at h
          rw [← h.1, strToQ_all_digits hd1 hall]
          rfl
        · simp [hd1, hr, hc, hd2] at h
          have hall2 : ∀ cc ∈ r2.takeWhile isDigitB, isDigitB cc = true :=
            fun cc hcc => List.mem_takeWhile_imp hcc
          rw [← h.1]
          exact strToQ_digits_frac hd1 hall hd2 hall2
      · simp [hd1, hr, hc] at h
        rw [← h.1, strToQ_all_digits hd1 hall]
        rfl

/-- C7: the quantity/unit parser is total: every string input yields a
4-tuple result (the `float` conversion, the only fallible step, always
succeeds on the matched number group); in the embedding the exception branch
of `parseQuantityAndUnitsOpt` is never taken. -/
theorem parse_quantity_total (s : List MChar) :
    ∃ q u m t, parseQuantityAndUnitsOpt s = some (q, u, m, t) := by
  simp only [parseQuantityAndUnitsOpt]
  cases hscan : scanNumber (pyStrip s) with
  | none => exact ⟨none, none, none, pyStrip s, rfl⟩
  | some nr =>
    obtain ⟨numStr, rest⟩ := nr
    dsimp only
    cases htry : tryUnitsFrom unitAlts rest with
    | none => exact ⟨none, none, none, pyStrip s, rfl⟩
    | some ur =>
      obtain ⟨u, r⟩ := ur
      have hq : (strToQ numStr).isSome := strToQ_isSome_of_scan hscan
      obtain ⟨q, hq⟩ := Option.isSome_iff_exists.mp hq
      simp only [hq]
      exact ⟨_, _, _, _, rfl⟩

/-- C5 counterexample: on the input "ab" (no leading number) the parser
returns quantity `none` (and multiplier `none`), not quantity 1 and
multiplier 1 as claimed; the callers later substitute 1. -/
theorem parse_no_number_counterexample :
    parseQuantityAndUnits [xa, xb] = (none, none, none, [xa, xb]) ∧
    (parseQuantityAndUnits [xa, xb]).1 ≠ some 1 := by decide

/-- C5 (amended): for every input line with no leading digit the parser
returns quantity = none, unit = none, multiplier = none and the stripped full
text as the item description (the quantity 1 is substituted later by the
callers through `quantity or 1`). -/
theorem parse_no_leading_number (s : List MChar)
    (h : ∀ c, (pyStrip s).head? = some c → isDigitB c = false) :
    parseQuantityAndUnits s = (none, none, none, pyStrip s) := by
  have hscan : scanNumber (pyStrip s) = none := by
    simp only [scanNumber]
    rw [takeWhile_nil_of_head h]
    simp
  simp only [parseQuantityAndUnits, parseQuantityAndUnitsOpt, hscan]
  rfl

theorem parse_no_leading_number_witness :
    parseQuantityAndUnits [xa, xb] = (none, none, none, pyStrip [xa, xb]) :=
  parse_no_leading_number [xa, xb] (by
    intro c hc
    rw [show (pyStrip [xa, xb]).head? = some xa from rfl] at hc
    have hxa := Option.some.inj hc
    rw [← hxa]
    decide)

/-- C9: threshold monotonicity of the plain fuzzy matcher: for a fixed input
name and menu, any name receiving a non-null menu id at the higher threshold
also receives one at the lower threshold. -/
theorem threshold_monotone (t1 t2 : ℚ) (items : List (List MChar × MenuEntry))
    (name : List MChar) (h12 : t1 ≤ t2)
    (h : (findMenuPriceForNameT t2 items name).2 ≠ none) :
    (findMenuPriceForNameT t1 items name).2 ≠ none := by
  by_cases hn : name = []
  · simp [findMenuPriceForNameT, hn] at h
  · by_cases hm : normalizeTextForMatch name = []
    · simp [findMenuPriceForNameT, hn, hm] at h
    · rcases hb : plainBest items name with ⟨bk, bs⟩
      cases bk with
      | none => simp [findMenuPriceForNameT, hn, hm, hb] at h
      | some k =>
        by_cases hcond : k ≠ [] ∧ bs ≥ t2
        · have hcond1 : k ≠ [] ∧ bs ≥ t1 := ⟨hcond.1, le_trans h12 hcond.2⟩
          simp only [findMenuPriceForNameT, if_neg hn, if_neg hm, hb,
            if_pos hcond, if_pos hcond1] at h ⊢
          exact h
        · simp [findMenuPriceForNameT, hn, hm, hb, hcond] at h

theorem threshold_monotone_witness :
    (1 / 2 : ℚ) ≤ 3 / 5 ∧
    (findMenuPriceForNameT (3 / 5) stAbcde.menuItems [xa, xb]).2 ≠ none ∧
    (findMenuPriceForNameT (1 / 2) stAbcde.menuItems [xa, xb]).2 ≠ none :=
  ⟨by decide, by decide,
    threshold_monotone (1 / 2) (3 / 5) stAbcde.menuItems [xa, xb] (by decide) (by decide)⟩

/-- C2 counterexample: with the menu {"abcde", id "1"} and the unit-less
query "ab", the unit-aware matcher accepts (non-null menu id) although its
best score is 2/5 = 0.40 < 0.45: the acceptance threshold at this call site
is 0.3, not 0.45. -/
theorem unit_threshold_counterexample :
    (findMenuMatchWithUnits stAbcde [xa, xb] none 1).menu_id = some [n1] ∧
    (findBestWithUnits stAbcde [xa, xb] none 1).2 < 45 / 100 := by decide

/-- C3 counterexample: at base similarity 1, a weight-unit query scores a
kg-flagged entry at 2 (a bonus of 1.0, not ≈0.20) and a portion entry at 1/2
(a penalty of 0.5 rather than no adjustment). -/
theorem unit_adjust_counterexample :
    scoreMenuEntry [xa, xb] [xa, xb] (some .uKg) 1 [xa, xb] = some (1 - 1 / 2) ∧
    scoreMenuEntry [xa, xb] [xa, xb] none 1 [xa, xb] = some 1 ∧
    scoreMenuEntry [xa, xb] [xa, xb] (some .uKg) 1 [gk, sp, xa, xb] = some 2 ∧
    ((1 : ℚ) - 1 / 2) ≠ 1 := by decide

/-- C4 counterexample: loading a menu with the duplicate normalized name "ab"
("Ab" id "1", then "AB" id "2") leaves the LAST item's entry in the index,
not the first-seen one. -/
theorem menu_index_counterexample :
    dictGet [xa, xb] (loadMenuDict menuDupAb initState).menuItems =
      some ⟨some [n2], [MChar.letter 97 true none, MChar.letter 98 true none], some 4,
        some Cat.kitchen⟩ ∧
    (some [n2] : Option (List MChar)) ≠ some [n1] := by decide

/-- C10 counterexample: the line "0ml x" parses with leading quantity 0, and
against the menu {"x (250)"} the classified record has multiplier
1/250 ≠ 1. -/
theorem multiplier_counterexample :
    (parseQuantityAndUnits [n0, xm, xl, sp, xx]).1 = some 0 ∧
    (classifyOrder stX250 [n0, xm, xl, sp, xx]).map (fun r => r.multiplier) = [1 / 250] ∧
    ((1 : ℚ) / 250) ≠ 1 := by decide

/-- C2 (amended): acceptance thresholds are 0.50 at the plain-name call site
(`THRESHOLD` in `_find_menu_price_for_name`) and 0.30 at the unit-aware call
site (`_find_menu_match_with_units`); below the threshold both return null
results. -/
theorem acceptance_thresholds (items : List (List MChar × MenuEntry))
    (name : List MChar) (st : NlpState) (itemText : List MChar)
    (u : Option UnitTok) (q : ℚ)
    (hplain : (plainBest items name).2 < 1 / 2)
    (hunit : (findBestWithUnits st itemText u q).2 < 3 / 10) :
    findMenuPriceForName items name = (none, none) ∧
    ((findMenuMatchWithUnits st itemText u q).menu_id = none ∧
      (findMenuMatchWithUnits st itemText u q).menu_name = none ∧
      (findMenuMatchWithUnits st itemText u q).price = none) := by
  constructor
  · by_cases hn : name = []
    · simp [findMenuPriceForName, findMenuPriceForNameT, hn]
    · by_cases hm : normalizeTextForMatch name = []
      · simp [findMenuPriceForName, findMenuPriceForNameT, hn, hm]
      · rcases hb : plainBest items name with ⟨bk, bs⟩
        rw [hb] at hplain
        dsimp at hplain
        cases bk with
        | none => simp [findMenuPriceForName, findMenuPriceForNameT, hn, hm, hb]
        | some k =>
          have hc : ¬(k ≠ [] ∧ bs ≥ 1 / 2) := by
            rintro ⟨-, hge⟩
            exact absurd hge (not_le.mpr hplain)
          simp only [findMenuPriceForName, findMenuPriceForNameT, if_neg hn, if_neg hm, hb]
          rw [if_neg hc]
  · by_cases hni : normalizeTextBasic itemText = []
    · simp [findMenuMatchWithUnits, hni, noUnitMatch]
    · rcases hbu : findBestWithUnits st itemText u q with ⟨be, bs⟩
      rw [hbu] at hunit
      dsimp at hunit
      cases be with
      | none => simp [findMenuMatchWithUnits, hni, hbu, noUnitMatch]
      | some e =>
        have hc : ¬(bs ≥ 3 / 10) := not_le.mpr hunit
        simp [findMenuMatchWithUnits, hni, hbu, hc, noUnitMatch]

theorem acceptance_thresholds_witness :
    ((plainBest stAbcde.menuItems [xz, xq]).2 < 1 / 2 ∧
      (findBestWithUnits stAbcde [xz, xq] none 1).2 < 3 / 10) ∧
    findMenuPriceForName stAbcde.menuItems [xz, xq] = (none, none) ∧
    ((findMenuMatchWithUnits stAbcde [xz, xq] none 1).menu_id = none ∧
      (findMenuMatchWithUnits stAbcde [xz, xq] none 1).menu_name = none ∧
      (findMenuMatchWithUnits stAbcde [xz, xq] none 1).price = none) :=
  ⟨⟨by decide, by decide⟩,
    acceptance_thresholds stAbcde.menuItems [xz, xq] stAbcde [xz, xq] none 1
      (by decide) (by decide)⟩

theorem strToQ_nonneg {s : List MChar} {q : ℚ} (h : strToQ s = some q) : 0 ≤ q := by
  simp only [strToQ] at h
  by_cases hd1 : s.takeWhile isDigitB = []
  · simp [hd1] at h
  · cases hr : s.dropWhile isDigitB with
    | nil =>
      simp [hd1, hr] at h
      rw [← h]
      positivity
    | cons c r2 =>
      by_cases hc : c = dotc
      · by_cases hd2 : r2.takeWhile isDigitB = []
        · simp [hd1, hr, hc, hd2] at h
        · by_cases hd3 : r2.dropWhile isDigitB = []
          · simp [hd1, hr, hc, hd2, hd3] at h
            rw [← h]
            positivity
          · simp [hd1, hr, hc, hd2, hd3] at h
      · simp [hd1, hr, hc] at h

theorem parse_q_nonneg {s : List MChar} {v : ℚ}
    (h : (parseQuantityAndUnits s).1 = some v) : 0 ≤ v := by
  simp only [parseQuantityAndUnits, parseQuantityAndUnitsOpt] at h
  cases hscan : scanNumber (pyStrip s) with
  | none => rw [hscan] at h; simp at h
  | some nr =>
    obtain ⟨numStr, rest⟩ := nr
    rw [hscan] at h
    dsimp at h
    cases htry : tryUnitsFrom unitAlts rest with
    | none => rw [htry] at h; simp at h
    | some ur =>
      obtain ⟨u, r⟩ := ur
      rw [htry] at h
      dsimp at h
      cases hq : strToQ numStr with
      | none => rw [hq] at h; simp at h
      | some q0 =>
        rw [hq] at h
        dsimp at h
        have hv := Option.some.inj h
        rw [← hv]
        exact strToQ_nonneg hq

theorem parse_none_shape {s : List MChar}
    (h : (parseQuantityAndUnits s).1 = none) :
    parseQuantityAndUnits s = (none, none, none, pyStrip s) := by
  simp only [parseQuantityAndUnits, parseQuantityAndUnitsOpt] at h ⊢
  cases hscan : scanNumber (pyStrip s) with
  | none => rfl
  | some nr =>
    obtain ⟨numStr, rest⟩ := nr
    rw [hscan] at h
    dsimp at h ⊢
    cases htry : tryUnitsFrom unitAlts rest with
    | none => rfl
    | some ur =>
      obtain ⟨u, r⟩ := ur
      rw [htry] at h
      dsimp at h ⊢
      cases hq : strToQ numStr with
      | none => rfl
      | some q0 => rw [hq] at h; simp at h

theorem qOr1_pos {x : Option ℚ} (h : ∀ v, x = some v → 0 ≤ v) : 0 < qOr1 x := by
  cases x with
  | none => norm_num [qOr1]
  | some v =>
    by_cases hv : v = 0
    · simp [qOr1, hv]
    · have h0 : 0 ≤ v := h v rfl
      simp only [qOr1, if_neg hv]
      exact lt_of_le_of_ne h0 (Ne.symm hv)

theorem munit_mult_pos (st : NlpState) (it : List MChar) (u : Option UnitTok)
    {q : ℚ} (hq : 0 < q) :
    0 < (findMenuMatchWithUnits st it u q).multiplier := by
  have hpy : 0 < pyOrQ q := by
    simp only [pyOrQ, if_neg (ne_of_gt hq)]
    exact hq
  by_cases hni : normalizeTextBasic it = []
  · simpa [findMenuMatchWithUnits, hni, noUnitMatch] using hpy
  · rcases hbu : findBestWithUnits st it u q with ⟨be, bs⟩
    cases be with
    | none => simpa [findMenuMatchWithUnits, hni, hbu, noUnitMatch] using hpy
    | some e =>
      by_cases hge : bs ≥ 3 / 10
      · simp only [findMenuMatchWithUnits, if_neg hni, hbu, if_pos hge]
        split_ifs <;> first
          | exact hq
          | exact hpy
          | positivity
      · simpa [findMenuMatchWithUnits, hni, hbu, hge, noUnitMatch] using hpy

theorem munit_mult_one_of_not_ml (st : NlpState) (it : List MChar)
    (u : Option UnitTok) (hu : u ≠ some .uMl) :
    (findMenuMatchWithUnits st it u 1).multiplier = 1 := by
  have hpy : pyOrQ 1 = 1 := by norm_num [pyOrQ]
  by_cases hni : normalizeTextBasic it = []
  · simp [findMenuMatchWithUnits, hni, noUnitMatch, hpy]
  · rcases hbu : findBestWithUnits st it u 1 with ⟨be, bs⟩
    cases be with
    | none => simp [findMenuMatchWithUnits, hni, hbu, noUnitMatch, hpy]
    | some e =>
      by_cases hge : bs ≥ 3 / 10
      · simp only [findMenuMatchWithUnits, if_neg hni, hbu, if_pos hge]
        have hml : isMlUnit u = false := by
          cases u with
          | none => rfl
          | some t => cases t <;> first | rfl | exact absurd rfl hu
        split_ifs with h1 h2 <;> simp_all [hpy]
      · simp [findMenuMatchWithUnits, hni, hbu, hge, noUnitMatch, hpy]

theorem classifyLine_multiplier (st : NlpState) (ln : List MChar) :
    (classifyLine st ln).multiplier =
      (findMenuMatchWithUnits st
        (parseQuantityAndUnits (extractParens (pyStrip ln)).1).2.2.2
        (parseQuantityAndUnits (extractParens (pyStrip ln)).1).2.1
        (qOr1 (parseQuantityAndUnits (extractParens (pyStrip ln)).1).1)).multiplier := rfl

/-- C10 (amended): every record returned by `classify_order` has a strictly
positive multiplier, even when `menu_id` is null; a line with no parsed
quantity yields multiplier 1, and a line with a parsed leading quantity of 0
yields multiplier 1 unless its unit is `ml` (where a menu match rescales the
substituted quantity 1 by the entry's reference size). -/
theorem classify_multiplier_amended :
    (∀ st orderText r, r ∈ classifyOrder st orderText → 0 < r.multiplier) ∧
    (∀ st ln, (parseQuantityAndUnits (extractParens (pyStrip ln)).1).1 = none →
      (classifyLine st ln).multiplier = 1) ∧
    (∀ st ln, (parseQuantityAndUnits (extractParens (pyStrip ln)).1).1 = some 0 →
      (parseQuantityAndUnits (extractParens (pyStrip ln)).1).2.1 ≠ some .uMl →
      (classifyLine st ln).multiplier = 1) := by
  refine ⟨?_, ?_, ?_⟩
  · intro st orderText r hr
    simp only [classifyOrder] at hr
    obtain ⟨ln, -, rfl⟩ := List.mem_map.mp hr
    rw [classifyLine_multiplier]
    exact munit_mult_pos st _ _ (qOr1_pos fun v hv => parse_q_nonneg hv)
  · intro st ln h
    have hshape := parse_none_shape h
    rw [classifyLine_multiplier, hshape]
    exact munit_mult_one_of_not_ml st _ none (by simp)
  · intro st ln h0 hml
    rw [classifyLine_multiplier, h0]
    have h1 : qOr1 (some 0) = 1 := by norm_num [qOr1]
    rw [h1]
    exact munit_mult_one_of_not_ml st _ _ hml

theorem classify_multiplier_amended_witness :
    (0 : ℚ) <
      ((classifyOrder stX250 [n0, xm, xl, sp, xx]).headD
        ⟨[], .kitchen, none, none, none, 0⟩).multiplier ∧
    (classifyLine stX250 [n0, xk, xg, sp, xx]).multiplier = 1 :=
  ⟨classify_multiplier_amended.1 stX250 [n0, xm, xl, sp, xx] _ (by decide),
    classify_multiplier_amended.2.2 stX250 [n0, xk, xg, sp, xx] (by decide) (by decide)⟩

theorem liter_not_kg {u : Option UnitTok} (h : isLiterUnit u = true) :
    isKgUnit u = false := by
  cases u with
  | none => simp [isLiterUnit] at h
  | some t => cases t <;> simp_all [isKgUnit, isLiterUnit]

/-- C3 (amended): the unit-consistency adjustment of the unit-aware matcher
adds 1.0 (not ≈0.20) to "κ "-prefixed entries and subtracts 0.5 from all
other entries when the query carries a weight unit; with a liter unit it adds
1.0 to "(1lt)"/"(1)" entries and subtracts 0.3 from "(0.5)" entries; with an
ml unit it adds 1.0 to size-compatible entries; with no unit it subtracts 0.5
from "κ "-prefixed entries and 0.3 from "(1lt)" entries (not ≈0.15). -/
theorem unit_score_adjustment (ni si nm : List MChar) (u : Option UnitTok)
    (q sc : ℚ) (h : scoreMenuEntry ni si u q nm = some sc) :
    (isKgUnit u = true → leadsWith kgPrefix nm = true →
      sc = baseSimRatio ni nm + 1) ∧
    (isKgUnit u = true → leadsWith kgPrefix nm = false →
      sc = baseSimRatio ni nm - 1 / 2) ∧
    (isLiterUnit u = true → (containsSub sz1lt nm || containsSub sz1 nm) = true →
      sc = baseSimRatio ni nm + 1) ∧
    (isLiterUnit u = true → (containsSub sz1lt nm || containsSub sz1 nm) = false →
      containsSub szHalf nm = true → sc = baseSimRatio ni nm - 3 / 10) ∧
    (u = some .uMl → containsSub sz250 nm = true → q ≥ 250 →
      sc = baseSimRatio ni nm + 1) ∧
    (u = none → leadsWith kgPrefix nm = true → sc = baseSimRatio ni nm - 1 / 2) ∧
    (u = none → leadsWith kgPrefix nm = false → containsSub sz1lt nm = true →
      sc = baseSimRatio ni nm - 3 / 10) ∧
    (u = none → leadsWith kgPrefix nm = false → containsSub sz1lt nm = false →
      sc = baseSimRatio ni nm) := by
  have hsc : sc = baseSimRatio ni nm + unitAdjust u q nm := by
    simp only [scoreMenuEntry] at h
    split at h
    · simp only [baseSimRatio]
      exact (Option.some.inj h).symm
    · exact absurd h (by simp)
  refine ⟨?_, ?_, ?_, ?_, ?_, ?_, ?_, ?_⟩
  · intro h1 h2
    rw [hsc]
    simp [unitAdjust, h1, h2]
  · intro h1 h2
    rw [hsc]
    simp [unitAdjust, h1, h2]
    ring
  · intro h1 h2
    rw [hsc]
    simp [unitAdjust, liter_not_kg h1, h1, h2]
  · intro h1 h2 h3
    rw [hsc]
    simp only [Bool.or_eq_false_iff] at h2
    simp [unitAdjust, liter_not_kg h1, h1, h2.1, h2.2, h3]
    ring
  · intro h1 h2 h3
    subst h1
    rw [hsc]
    simp [unitAdjust, isKgUnit, isLiterUnit, isMlUnit, h2, h3]
  · intro h1 h2
    subst h1
    rw [hsc]
    simp [unitAdjust, isKgUnit, isLiterUnit, isMlUnit, h2]
    ring
  · intro h1 h2 h3
    subst h1
    rw [hsc]
    simp [unitAdjust, isKgUnit, isLiterUnit, isMlUnit, h2, h3]
    ring
  · intro h1 h2 h3
    subst h1
    rw [hsc]
    simp [unitAdjust, isKgUnit, isLiterUnit, isMlUnit, h2, h3]

theorem unit_score_adjustment_witness :
    scoreMenuEntry [xa, xb] [xa, xb] (some .uKg) 1 [gk, sp, xa, xb] = some 2 ∧
    (2 : ℚ) = baseSimRatio [xa, xb] [gk, sp, xa, xb] + 1 :=
  ⟨by decide,
    (unit_score_adjustment [xa, xb] [xa, xb] [gk, sp, xa, xb] (some .uKg) 1 2
      (by decide)).1 (by decide) (by decide)⟩

/-- C1: override precedence (spec-modelled): when the normalized raw text of
a line has an override entry whose target menu id exists in the menu index,
the classified record's `menu_id` is the override's target, the record is the
directly-built override record (the fuzzy matcher is not consulted), the
result does not depend on the stem sets used by category resolution, and the
same record is what `classify_order` emits for that line. -/
theorem override_precedence (st : NlpState) (rules : List (List MChar × List MChar))
    (ln mid : List MChar) (kv : List MChar × MenuEntry)
    (hrule : dictGet (normalizeTextBasic (pyStrip ln)) rules = some mid)
    (hfind : st.menuItems.find? (fun p => p.2.id = some mid) = some kv) :
    (classifyLineOv st rules ln).menu_id = some mid ∧
    classifyLineOv st rules ln =
      overrideRecord kv.2 mid (pyStrip ln)
        (parseQuantityAndUnits (extractParens (pyStrip ln)).1).1
        (parseQuantityAndUnits (extractParens (pyStrip ln)).1).2.2.1 ∧
    (∀ g d k, classifyLineOv ⟨st.menuItems, g, d, k⟩ rules ln =
      classifyLineOv st rules ln) ∧
    (∀ orderText, ln ∈ (splitLines orderText).filter (fun l => pyStrip l ≠ []) →
      classifyLineOv st rules ln ∈ classifyOrderOv st rules orderText) := by
  have hmain : classifyLineOv st rules ln =
      overrideRecord kv.2 mid (pyStrip ln)
        (parseQuantityAndUnits (extractParens (pyStrip ln)).1).1
        (parseQuantityAndUnits (extractParens (pyStrip ln)).1).2.2.1 := by
    simp only [classifyLineOv, hrule, hfind]
  refine ⟨?_, hmain, ?_, ?_⟩
  · rw [hmain]
    rfl
  · intro g d k
    have hfind' : (NlpState.mk st.menuItems g d k).menuItems.find?
        (fun p => p.2.id = some mid) = some kv := hfind
    simp only [classifyLineOv, hrule, hfind, hfind']
  · intro orderText ht
    exact List.mem_map_of_mem _ ht

theorem override_precedence_witness :
    (classifyLineOv stAbcde (buildOverrideRules demoSamples) [xa, xb]).menu_id =
      some [n1] :=
  (override_precedence stAbcde (buildOverrideRules demoSamples) [xa, xb] [n1]
    ([xa, xb, xc, xd, xe],
      ⟨some [n1], [xa, xb, xc, xd, xe], some 5, some Cat.kitchen⟩)
    (by decide) (by decide)).1

theorem dictGet_insert {V : Type _} (k k' : List MChar) (v : V)
    (d : List (List MChar × V)) :
    dictGet k (dictInsert k' v d) = if k' = k then some v else dictGet k d := by
  induction d with
  | nil => simp [dictInsert, dictGet]
  | cons a rest ih =>
    by_cases ha : a.1 = k'
    · simp only [dictInsert, if_pos ha, dictGet]
      by_cases hk : k' = k
      · simp [hk]
      · have : ¬ a.1 = k := fun hcon => hk (ha ▸ hcon)
        simp [hk, this, dictGet]
    · simp only [dictInsert, if_neg ha, dictGet]
      by_cases hk : a.1 = k
      · have : ¬ k' = k := fun hcon => ha (hcon ▸ hk)
        simp [hk, this]
      · simp [hk, ih]

theorem dictGet_foldl_insert {V : Type _} (kvs : List (List MChar × V))
    (d0 : List (List MChar × V)) (k : List MChar) :
    dictGet k (kvs.foldl (fun d kv => dictInsert kv.1 kv.2 d) d0) =
      ((kvs.reverse.find? (fun p => p.1 = k)).map Prod.snd).or (dictGet k d0) := by
  induction kvs generalizing d0 with
  | nil => simp [Option.or]
  | cons kv rest ih =>
    simp only [List.foldl_cons, ih, List.reverse_cons, List.find?_append]
    rw [dictGet_insert]
    cases hA : rest.reverse.find? (fun p => p.1 = k) with
    | some a => simp [Option.or]
    | none =>
      by_cases hc : kv.1 = k
      · simp [List.find?, hc, Option.or]
      · simp [List.find?, hc, Option.or]

theorem foldl_pairEntry (l : List (List MChar × RawEntry))
    (d0 : List (List MChar × MenuEntry)) :
    l.foldl (fun d p =>
        match pairEntry p with
        | none => d
        | some kv => dictInsert kv.1 kv.2 d) d0 =
      (l.filterMap pairEntry).foldl (fun d kv => dictInsert kv.1 kv.2 d) d0 := by
  induction l generalizing d0 with
  | nil => rfl
  | cons p rest ih =>
    cases hp : pairEntry p with
    | none => simp [List.filterMap_cons, hp, ih]
    | some kv => simp [List.filterMap_cons, hp, ih]

theorem processEntry_menuItems (tc : List MChar) (e : RawEntry) (st : NlpState) :
    (processEntry tc e st).menuItems =
      match pairEntry (tc, e) with
      | none => st.menuItems
      | some kv => dictInsert kv.1 kv.2 st.menuItems := by
  simp only [processEntry]
  split <;> simp_all

theorem loadMenu_menuItems (menu : List (List MChar × List RawEntry)) (st : NlpState) :
    (loadMenuDict menu st).menuItems =
      (flattenMenu menu).foldl (fun d p =>
        match pairEntry p with
        | none => d
        | some kv => dictInsert kv.1 kv.2 d) st.menuItems := by
  induction menu generalizing st with
  | nil => rfl
  | cons tcItems rest ih =>
    have inner : ∀ (items : List RawEntry) (s : NlpState),
        ((items.foldl (fun s' e => processEntry tcItems.1 e s') s).menuItems) =
          items.foldl (fun d e =>
            match pairEntry (tcItems.1, e) with
            | none => d
            | some kv => dictInsert kv.1 kv.2 d) s.menuItems := by
      intro items
      induction items with
      | nil => intro s; rfl
      | cons e es ihe =>
        intro s
        simp only [List.foldl_cons, ihe, processEntry_menuItems]
    simp only [loadMenuDict, List.foldl_cons] at *
    rw [ih]
    simp only [flattenMenu, List.flatMap_cons, List.foldl_append, List.foldl_map, inner]

/-- C4 (amended): on duplicate normalized names the `MENU_ITEMS` index keeps
the LAST-seen item's entry: for every menu and normalized key, the loaded
index maps the key to the entry of the last (topCat, item) pair in iteration
order whose normalized name equals the key (plain dict assignment overwrites
earlier duplicates). -/
theorem menu_index_last_wins (menu : List (List MChar × List RawEntry))
    (nn : List MChar) :
    dictGet nn (loadMenuDict menu initState).menuItems =
      (((flattenMenu menu).filterMap pairEntry).reverse.find?
        (fun p => p.1 = nn)).map Prod.snd := by
  rw [loadMenu_menuItems, foldl_pairEntry, dictGet_foldl_insert]
  simp [initState, dictGet]

theorem goodWs_tail {c : MChar} {X : List MChar} (h : goodWs (c :: X)) : goodWs X := by
  cases X with
  | nil => trivial
  | cons d rest => exact h.2

theorem goodWs_cons {c : MChar} {X : List MChar}
    (h1 : isSpaceB c = true → c = sp ∧ ∀ x, X.head? = some x → isSpaceB x = false)
    (h2 : goodWs X) : goodWs (c :: X) := by
  cases X with
  | nil => exact fun hsp => (h1 hsp).1
  | cons x xs => exact ⟨fun hsp => ⟨(h1 hsp).1, (h1 hsp).2 x rfl⟩, h2⟩

theorem squeezeWs_head {d : MChar} {rest : List MChar} (hd : isSpaceB d = false) :
    (squeezeWs (d :: rest)).head? = some d := by
  cases rest with
  | nil => simp [squeezeWs, hd]
  | cons e r => simp [squeezeWs, hd]

theorem squeezeWs_good : ∀ l : List MChar, goodWs (squeezeWs l)
  | [] => trivial
  | [c] => by
    by_cases hc : isSpaceB c = true
    · simp only [squeezeWs, if_pos hc]
      exact fun _ => rfl
    · simp only [squeezeWs, if_neg hc]
      exact fun hsp => absurd hsp hc
  | c :: d :: rest => by
    by_cases hc : isSpaceB c = true
    · by_cases hd : isSpaceB d = true
      · simpa [squeezeWs, hc, hd] using squeezeWs_good (d :: rest)
      · simp only [squeezeWs, if_pos hc, if_neg hd]
        refine goodWs_cons ?_ (squeezeWs_good (d :: rest))
        intro _
        refine ⟨rfl, fun x hx => ?_⟩
        rw [squeezeWs_head (by simpa using hd)] at hx
        rw [← Option.some.inj hx]
        simpa using hd
    · simp only [squeezeWs, if_neg hc]
      refine goodWs_cons ?_ (squeezeWs_good (d :: rest))
      intro hsp
      exact absurd hsp hc

theorem squeezeWs_id : ∀ l : List MChar, goodWs l → squeezeWs l = l
  | [], _ => rfl
  | [c], h => by
    by_cases hc : isSpaceB c = true
    · simp [squeezeWs, hc, h hc]
    · simp [squeezeWs, hc]
  | c :: d :: rest, h => by
    by_cases hc : isSpaceB c = true
    · obtain ⟨hcsp, hdns⟩ := h.1 hc
      simp [squeezeWs, hc, hdns, hcsp, squeezeWs_id (d :: rest) h.2]
    · simp [squeezeWs, hc, squeezeWs_id (d :: rest) h.2]

theorem goodWs_dropWhile {p : MChar → Bool} :
    ∀ l : List MChar, goodWs l → goodWs (l.dropWhile p)
  | [], _ => trivial
  | c :: rest, h => by
    by_cases hc : p c = true
    · rw [List.dropWhile_cons, if_pos hc]
      exact goodWs_dropWhile rest (goodWs_tail h)
    · rw [List.dropWhile_cons, if_neg hc]
      exact h

theorem dropTrailingWs_shape (x : MChar) (xs : List MChar) :
    dropTrailingWs (x :: xs) = [] ∨ ∃ ys, dropTrailingWs (x :: xs) = x :: ys := by
  simp only [dropTrailingWs]
  split
  · split
    · exact Or.inl rfl
    · exact Or.inr ⟨[], rfl⟩
  · exact Or.inr ⟨dropTrailingWs xs, rfl⟩

theorem goodWs_dropTrailingWs : ∀ l : List MChar, goodWs l → goodWs (dropTrailingWs l)
  | [], _ => trivial
  | c :: rest, h => by
    have ih := goodWs_dropTrailingWs rest (goodWs_tail h)
    simp only [dropTrailingWs]
    split
    · split
      · trivial
      · intro hsp
        cases rest with
        | nil => exact h hsp
        | cons d r => exact (h.1 hsp).1
    · rename_i hr
      refine goodWs_cons ?_ ih
      intro hsp
      cases rest with
      | nil => exact absurd rfl hr
      | cons d r =>
        obtain ⟨hcsp, hdns⟩ := h.1 hsp
        refine ⟨hcsp, fun x hx => ?_⟩
        rcases dropTrailingWs_shape d r with hnil | ⟨ys, hys⟩
        · exact absurd hnil hr
        · rw [hys, List.head?_cons] at hx
          rw [← Option.some.inj hx]
          exact hdns

theorem dropWhile_head_false {p : MChar → Bool} :
    ∀ (l : List MChar) (c : MChar), (l.dropWhile p).head? = some c → p c = false
  | [], c => by simp
  | x :: xs, c => by
    by_cases hx : p x = true
    · rw [List.dropWhile_cons, if_pos hx]
      exact dropWhile_head_false xs c
    · rw [List.dropWhile_cons, if_neg hx, List.head?_cons]
      intro h
      rw [← Option.some.inj h]
      exact Bool.not_eq_true _ ▸ (by simpa using hx)

theorem dropWhile_id {p : MChar → Bool} {l : List MChar}
    (h : ∀ c, l.head? = some c → p c = false) : l.dropWhile p = l := by
  cases l with
  | nil => rfl
  | cons x xs => rw [List.dropWhile_cons, if_neg (by simp [h x rfl])]

theorem dropTrailingWs_head :
    ∀ {l : List MChar} {c : MChar}, (dropTrailingWs l).head? = some c → l.head? = some c := by
  intro l c
  cases l with
  | nil => simp [dropTrailingWs]
  | cons x xs =>
    rcases dropTrailingWs_shape x xs with hnil | ⟨ys, hys⟩
    · rw [hnil]; simp
    · rw [hys, List.head?_cons, List.head?_cons]
      exact id

theorem dropTrailingWs_last :
    ∀ (l : List MChar) (c : MChar), (dropTrailingWs l).getLast? = some c → isSpaceB c = false
  | [], c => by simp [dropTrailingWs]
  | x :: xs, c => by
    simp only [dropTrailingWs]
    split
    · split
      · simp
      · rename_i hsp
        simp only [List.getLast?_singleton]
        intro h
        rw [← Option.some.inj h]
        simpa using hsp
    · rename_i hr
      cases hys : dropTrailingWs xs with
      | nil => exact absurd hys hr
      | cons y ys =>
        rw [List.getLast?_cons_cons]
        rw [← hys]
        exact dropTrailingWs_last xs c

theorem dropTrailingWs_cons (c : MChar) (rest : List MChar) :
    dropTrailingWs (c :: rest) =
      if dropTrailingWs rest = [] then (if isSpaceB c = true then [] else [c])
      else c :: dropTrailingWs rest := rfl

theorem dropTrailingWs_id :
    ∀ (l : List MChar), (∀ c, l.getLast? = some c → isSpaceB c = false) →
      dropTrailingWs l = l
  | [], _ => rfl
  | x :: xs, h => by
    cases xs with
    | nil =>
      have hx : isSpaceB x = false := h x rfl
      simp [dropTrailingWs, hx]
    | cons y ys =>
      have hxs : dropTrailingWs (y :: ys) = y :: ys := by
        refine dropTrailingWs_id (y :: ys) ?_
        intro c hc
        exact h c (by rw [List.getLast?_cons_cons]; exact hc)
      rw [dropTrailingWs_cons, hxs, if_neg (List.cons_ne_nil y ys)]

theorem pyStrip_head {l : List MChar} {c : MChar}
    (h : (pyStrip l).head? = some c) : isSpaceB c = false :=
  dropWhile_head_false l c (dropTrailingWs_head h)

theorem pyStrip_last {l : List MChar} {c : MChar}
    (h : (pyStrip l).getLast? = some c) : isSpaceB c = false :=
  dropTrailingWs_last _ c h

theorem pyStrip_id {l : List MChar}
    (hh : ∀ c, l.head? = some c → isSpaceB c = false)
    (hl : ∀ c, l.getLast? = some c → isSpaceB c = false) : pyStrip l = l := by
  unfold pyStrip
  rw [dropWhile_id hh]
  exact dropTrailingWs_id l hl

theorem mem_dropTrailingWs : ∀ {l : List MChar} {c : MChar}, c ∈ dropTrailingWs l → c ∈ l := by
  intro l
  induction l with
  | nil => intro c h; simp [dropTrailingWs] at h
  | cons x xs ih =>
    intro c h
    simp only [dropTrailingWs] at h
    split at h
    · split at h
      · simp at h
      · simp only [List.mem_singleton] at h
        simp [h]
    · rcases List.mem_cons.mp h with rfl | hm
      · simp
      · simp [ih hm]

theorem mem_pyStrip {l : List MChar} {c : MChar} (h : c ∈ pyStrip l) : c ∈ l :=
  List.Sublist.mem (mem_dropTrailingWs h) (List.dropWhile_sublist _)

theorem nfd_lower_clean (y c : MChar) (hc : c ∈ nfdChar (toLowerChar y))
    (hnc : isCombB c = false) : toLowerChar c = c ∧ nfdChar c = [c] := by
  cases y with
  | letter b u a =>
    cases a with
    | none =>
      simp only [toLowerChar, nfdChar, List.mem_singleton] at hc
      subst hc
      exact ⟨rfl, rfl⟩
    | some m =>
      simp only [toLowerChar, nfdChar, List.mem_cons, List.mem_singleton] at hc
      rcases hc with rfl | hc
      · exact ⟨rfl, rfl⟩
      · rcases hc with rfl | hc
        · simp [isCombB] at hnc
        · simp at hc
  | digit d =>
    simp only [toLowerChar, nfdChar, List.mem_singleton] at hc
    subst hc
    exact ⟨rfl, rfl⟩
  | space k =>
    simp only [toLowerChar, nfdChar, List.mem_singleton] at hc
    subst hc
    exact ⟨rfl, rfl⟩
  | punct p =>
    simp only [toLowerChar, nfdChar, List.mem_singleton] at hc
    subst hc
    exact ⟨rfl, rfl⟩
  | combining m =>
    simp only [toLowerChar, nfdChar, List.mem_singleton] at hc
    subst hc
    simp [isCombB] at hnc

theorem mem_stripAccents_clean {w : List MChar} {c : MChar}
    (h : c ∈ stripAccents (toLowerStr w)) :
    toLowerChar c = c ∧ nfdChar c = [c] ∧ isCombB c = false := by
  simp only [stripAccents, toLowerStr] at h
  obtain ⟨hmem, hcomb⟩ := List.mem_filter.mp h
  have hcomb' : isCombB c = false := by simpa using hcomb
  obtain ⟨x, hx, hcx⟩ := List.mem_flatMap.mp hmem
  obtain ⟨y, -, rfl⟩ := List.mem_map.mp hx
  obtain ⟨h1, h2⟩ := nfd_lower_clean y c hcx hcomb'
  exact ⟨h1, h2, hcomb'⟩

theorem mem_squeezeWs : ∀ {l : List MChar} {c : MChar}, c ∈ squeezeWs l → c = sp ∨ c ∈ l
  | [], c => by simp [squeezeWs]
  | [d], c => by
    by_cases hd : isSpaceB d = true
    · simp only [squeezeWs, if_pos hd, List.mem_singleton]
      exact fun h => Or.inl h
    · simp only [squeezeWs, if_neg hd, List.mem_singleton]
      exact fun h => Or.inr (by simp [h])
  | d :: e :: rest, c => by
    intro h
    by_cases hd : isSpaceB d = true
    · by_cases he : isSpaceB e = true
      · rw [squeezeWs, if_pos hd, if_pos he] at h
        rcases mem_squeezeWs h with h1 | h1
        · exact Or.inl h1
        · exact Or.inr (List.mem_cons_of_mem d h1)
      · rw [squeezeWs, if_pos hd, if_neg he] at h
        rcases List.mem_cons.mp h with rfl | h1
        · exact Or.inl rfl
        · rcases mem_squeezeWs h1 with h2 | h2
          · exact Or.inl h2
          · exact Or.inr (List.mem_cons_of_mem d h2)
    · rw [squeezeWs, if_neg hd] at h
      rcases List.mem_cons.mp h with rfl | h1
      · exact Or.inr (List.mem_cons_self c _)
      · rcases mem_squeezeWs h1 with h2 | h2
        · exact Or.inl h2
        · exact Or.inr (List.mem_cons_of_mem d h2)

theorem keep_not_comb {c : MChar} (h : keepB c = true) : isCombB c = false := by
  cases c <;> simp_all [keepB, isAlnumB, isSpaceB, isCombB]

theorem map_self {f : MChar → MChar} :
    ∀ {l : List MChar}, (∀ c ∈ l, f c = c) → l.map f = l
  | [], _ => rfl
  | x :: xs, h => by
    rw [List.map_cons, h x (List.mem_cons_self x xs),
      map_self fun c hc => h c (List.mem_cons_of_mem x hc)]

theorem flatMap_self {f : MChar → List MChar} :
    ∀ {l : List MChar}, (∀ c ∈ l, f c = [c]) → l.flatMap f = l
  | [], _ => rfl
  | x :: xs, h => by
    rw [List.flatMap_cons, h x (List.mem_cons_self x xs),
      flatMap_self fun c hc => h c (List.mem_cons_of_mem x hc)]
    rfl

theorem normalize_output_props (s : List MChar) :
    (∀ c ∈ normalizeTextBasic s, keepB c = true ∧ toLowerChar c = c ∧ nfdChar c = [c]) ∧
    goodWs (normalizeTextBasic s) ∧
    (∀ c, (normalizeTextBasic s).head? = some c → isSpaceB c = false) ∧
    (∀ c, (normalizeTextBasic s).getLast? = some c → isSpaceB c = false) := by
  by_cases hs : s = []
  · subst hs
    exact ⟨by simp [normalizeTextBasic], by simp [normalizeTextBasic, goodWs],
      by simp [normalizeTextBasic], by simp [normalizeTextBasic]⟩
  · simp only [normalizeTextBasic, if_neg hs]
    refine ⟨?_, ?_, ?_, ?_⟩
    · intro c hc
      rcases mem_squeezeWs (mem_pyStrip hc) with rfl | hcF
      · exact ⟨rfl, rfl, rfl⟩
      · have hkeep := (List.mem_filter.mp hcF).2
        have hcu := (List.mem_filter.mp hcF).1
        obtain ⟨h1, h2, -⟩ := mem_stripAccents_clean hcu
        exact ⟨hkeep, h1, h2⟩
    · unfold pyStrip
      exact goodWs_dropTrailingWs _ (goodWs_dropWhile _ (squeezeWs_good _))
    · intro c hc
      exact pyStrip_head hc
    · intro c hc
      exact pyStrip_last hc

/-- C6: text normalization is idempotent: for every string x,
`_normalize_text_basic(_normalize_text_basic(x)) = _normalize_text_basic(x)`. -/
theorem normalize_idempotent (s : List MChar) :
    normalizeTextBasic (normalizeTextBasic s) = normalizeTextBasic s := by
  obtain ⟨hchars, hgood, hhead, hlast⟩ := normalize_output_props s
  set t := normalizeTextBasic s with ht
  by_cases htn : t = []
  · rw [htn]
    rfl
  · have h1 : pyStrip t = t := pyStrip_id hhead hlast
    have h2 : toLowerStr t = t := map_self fun c hc => (hchars c hc).2.1
    have h3 : stripAccents t = t := by
      simp only [stripAccents]
      rw [show t.flatMap nfdChar = t from flatMap_self fun c hc => (hchars c hc).2.2]
      exact List.filter_eq_self.mpr fun c hc => by
        simpa using keep_not_comb (hchars c hc).1
    have h4 : t.filter keepB = t := List.filter_eq_self.mpr fun c hc => (hchars c hc).1
    have h5 : squeezeWs t = t := squeezeWs_id t hgood
    show normalizeTextBasic t = t
    unfold normalizeTextBasic
    rw [if_neg htn, h1, h2, h3]
    dsimp only
    rw [h4, h5, h1]

theorem contOK_sp {R : List MChar} (hR : ∀ c, R.head? = some c → isSpaceB c = false)
    (hne : R ≠ []) (hnl : nl ∉ R) : contOK (sp :: R) = some R := by
  have h1 : (sp :: R).takeWhile isSpaceB = sp :: R.takeWhile isSpaceB := by
    rw [List.takeWhile_cons, if_pos (by rfl)]
  have h2 : R.takeWhile isSpaceB = [] := takeWhile_nil_of_head hR
  have h3 : (sp :: R).dropWhile isSpaceB = R := by
    rw [List.dropWhile_cons, if_pos (by rfl), dropWhile_id hR]
  simp only [contOK, h1, h2, h3]
  rw [if_pos ⟨List.cons_ne_nil sp [], hne, hnl⟩]

theorem head_not_space_of_digits {d : List MChar} {r : List MChar}
    (hd : d ≠ []) (hdall : ∀ c ∈ d, isDigitB c = true) :
    ∀ c, (d ++ r).head? = some c → isSpaceB c = false := by
  intro c hc
  cases d with
  | nil => exact absurd rfl hd
  | cons x xs =>
    rw [List.cons_append, List.head?_cons] at hc
    rw [← Option.some.inj hc]
    have := hdall x (List.mem_cons_self x xs)
    cases x <;> simp_all [isDigitB, isSpaceB]

theorem tryUnits_at_space (R : List MChar) :
    tryUnitsFrom unitAlts (sp :: R) = (contOK (sp :: R)).map (fun r => ((none : Option UnitTok), r)) := by
  simp [unitAlts, tryUnitsFrom, matchTokCI, tokStr, toLowerChar, sp, gl, gt, xl, xt,
    xk, xg, gk, gi, ga, go, xm]

theorem parse_spaced (d R : List MChar) (hd : d ≠ [])
    (hdall : ∀ c ∈ d, isDigitB c = true)
    (hRh : ∀ c, R.head? = some c → isSpaceB c = false)
    (hRl : ∀ c, R.getLast? = some c → isSpaceB c = false)
    (hRne : R ≠ []) (hRnl : nl ∉ R) :
    parseQuantityAndUnits (d ++ sp :: R) = (some (digitsToNat d : ℚ), none, none, R) := by
  have hstrip : pyStrip (d ++ sp :: R) = d ++ sp :: R := by
    apply pyStrip_id
    · exact head_not_space_of_digits hd hdall
    · intro c hc
      rw [List.getLast?_append_of_ne_nil d (List.cons_ne_nil sp R)] at hc
      cases R with
      | nil => exact absurd rfl hRne
      | cons y ys =>
        rw [List.getLast?_cons_cons] at hc
        exact hRl c hc
  have hscan : scanNumber (d ++ sp :: R) = some (d, sp :: R) := by
    simp only [scanNumber]
    rw [takeWhile_append_stop hdall (by rfl), dropWhile_append_stop hdall (by rfl)]
    rw [if_neg hd]
    dsimp only
    rw [if_neg (show ¬ sp = dotc by decide)]
  simp only [parseQuantityAndUnits, parseQuantityAndUnitsOpt, hstrip, hscan,
    tryUnits_at_space, contOK_sp hRh hRne hRnl, strToQ_all_digits hd hdall,
    pyStrip_id hRh hRl, Option.map_some', Option.getD_some]

theorem parse_glued (d t : List MChar) (tok : UnitTok) (hd : d ≠ [])
    (hdall : ∀ c ∈ d, isDigitB c = true)
    (hth : ∀ c, t.head? = some c → isSpaceB c = false)
    (htl : ∀ c, t.getLast? = some c → isSpaceB c = false)
    (ht1 : t ≠ []) (htnl : nl ∉ t) :
    parseQuantityAndUnits (d ++ (tokStr tok ++ sp :: t)) =
      (some (digitsToNat d : ℚ), some tok,
        some (if tok = .uMl then (digitsToNat d : ℚ) / 250 else (digitsToNat d : ℚ)), t) := by
  have hcont := contOK_sp hth ht1 htnl
  have hcont2 : contOK (MChar.space 0 :: t) = some t := hcont
  have hitem := pyStrip_id hth htl
  have hstrip : pyStrip (d ++ (tokStr tok ++ sp :: t)) = d ++ (tokStr tok ++ sp :: t) := by
    apply pyStrip_id
    · exact head_not_space_of_digits hd hdall
    · intro c hc
      rw [List.getLast?_append_of_ne_nil d (by simp),
        List.getLast?_append_of_ne_nil _ (List.cons_ne_nil sp t)] at hc
      cases t with
      | nil => exact absurd rfl ht1
      | cons y ys =>
        rw [List.getLast?_cons_cons] at hc
        exact htl c hc
  cases tok with
  | uLamTau =>
    simp only [tokStr, List.cons_append, List.nil_append] at hstrip ⊢
    have hscan : scanNumber (d ++ gl :: gt :: sp :: t) = some (d, gl :: gt :: sp :: t) := by
      simp only [scanNumber]
      rw [takeWhile_append_stop hdall (by decide), dropWhile_append_stop hdall (by decide),
        if_neg hd]
      dsimp only
      rw [if_neg (show ¬ gl = dotc by decide)]
    have htry : tryUnitsFrom unitAlts (gl :: gt :: sp :: t) = some (some UnitTok.uLamTau, t) := by
      simp [unitAlts, tryUnitsFrom, matchTokCI, tokStr, toLowerChar, gl, gt, xl, xt,
        xk, xg, gk, gi, ga, go, xm, sp, hcont, hcont2]
    simp only [parseQuantityAndUnits, parseQuantityAndUnitsOpt, hstrip, hscan, htry,
      strToQ_all_digits hd hdall, hitem, Option.getD_some]
    simp
  | uLam =>
    simp only [tokStr, List.cons_append, List.nil_append] at hstrip ⊢
    have hscan : scanNumber (d ++ gl :: sp :: t) = some (d, gl :: sp :: t) := by
      simp only [scanNumber]
      rw [takeWhile_append_stop hdall (by decide), dropWhile_append_stop hdall (by decide),
        if_neg hd]
      dsimp only
      rw [if_neg (show ¬ gl = dotc by decide)]
    have htry : tryUnitsFrom unitAlts (gl :: sp :: t) = some (some UnitTok.uLam, t) := by
      simp [unitAlts, tryUnitsFrom, matchTokCI, tokStr, toLowerChar, gl, gt, xl, xt,
        xk, xg, gk, gi, ga, go, xm, sp, hcont, hcont2]
    simp only [parseQuantityAndUnits, parseQuantityAndUnitsOpt, hstrip, hscan, htry,
      strToQ_all_digits hd hdall, hitem, Option.getD_some]
    simp
  | uLt =>
    simp only [tokStr, List.cons_append, List.nil_append] at hstrip ⊢
    have hscan : scanNumber (d ++ xl :: xt :: sp :: t) = some (d, xl :: xt :: sp :: t) := by
      simp only [scanNumber]
      rw [takeWhile_append_stop hdall (by decide), dropWhile_append_stop hdall (by decide),
        if_neg hd]
      dsimp only
      rw [if_neg (show ¬ xl = dotc by decide)]
    have htry : tryUnitsFrom unitAlts (xl :: xt :: sp :: t) = some (some UnitTok.uLt, t) := by
      simp [unitAlts, tryUnitsFrom, matchTokCI, tokStr, toLowerChar, gl, gt, xl, xt,
        xk, xg, gk, gi, ga, go, xm, sp, hcont, hcont2]
    simp only [parseQuantityAndUnits, parseQuantityAndUnitsOpt, hstrip, hscan, htry,
      strToQ_all_digits hd hdall, hitem, Option.getD_some]
    simp
  | uL =>
    simp only [tokStr, List.cons_append, List.nil_append] at hstrip ⊢
    have hscan : scanNumber (d ++ xl :: sp :: t) = some (d, xl :: sp :: t) := by
      simp only [scanNumber]
      rw [takeWhile_append_stop hdall (by decide), dropWhile_append_stop hdall (by decide),
        if_neg hd]
      dsimp only
      rw [if_neg (show ¬ xl = dotc by decide)]
    have htry : tryUnitsFrom unitAlts (xl :: sp :: t) = some (some UnitTok.uL, t) := by
      simp [unitAlts, tryUnitsFrom, matchTokCI, tokStr, toLowerChar, gl, gt, xl, xt,
        xk, xg, gk, gi, ga, go, xm, sp, hcont, hcont2]
    simp only [parseQuantityAndUnits, parseQuantityAndUnitsOpt, hstrip, hscan, htry,
      strToQ_all_digits hd hdall, hitem, Option.getD_some]
    simp
  | uKg =>
    simp only [tokStr, List.cons_append, List.nil_append] at hstrip ⊢
    have hscan : scanNumber (d ++ xk :: xg :: sp :: t) = some (d, xk :: xg :: sp :: t) := by
      simp only [scanNumber]
      rw [takeWhile_append_stop hdall (by decide), dropWhile_append_stop hdall (by decide),
        if_neg hd]
      dsimp only
      rw [if_neg (show ¬ xk = dotc by decide)]
    have htry : tryUnitsFrom unitAlts (xk :: xg :: sp :: t) = some (some UnitTok.uKg, t) := by
      simp [unitAlts, tryUnitsFrom, matchTokCI, tokStr, toLowerChar, gl, gt, xl, xt,
        xk, xg, gk, gi, ga, go, xm, sp, hcont, hcont2]
    simp only [parseQuantityAndUnits, parseQuantityAndUnitsOpt, hstrip, hscan, htry,
      strToQ_all_digits hd hdall, hitem, Option.getD_some]
    simp
  | uKila =>
    simp only [tokStr, List.cons_append, List.nil_append] at hstrip ⊢
    have hscan : scanNumber (d ++ gk :: gi :: gl :: ga :: sp :: t) = some (d, gk :: gi :: gl :: ga :: sp :: t) := by
      simp only [scanNumber]
      rw [takeWhile_append_stop hdall (by decide), dropWhile_append_stop hdall (by decide),
        if_neg hd]
      dsimp only
      rw [if_neg (show ¬ gk = dotc by decide)]
    have htry : tryUnitsFrom unitAlts (gk :: gi :: gl :: ga :: sp :: t) = some (some UnitTok.uKila, t) := by
      simp [unitAlts, tryUnitsFrom, matchTokCI, tokStr, toLowerChar, gl, gt, xl, xt,
        xk, xg, gk, gi, ga, go, xm, sp, hcont, hcont2]
    simp only [parseQuantityAndUnits, parseQuantityAndUnitsOpt, hstrip, hscan, htry,
      strToQ_all_digits hd hdall, hitem, Option.getD_some]
    simp
  | uKilo =>
    simp only [tokStr, List.cons_append, List.nil_append] at hstrip ⊢
    have hscan : scanNumber (d ++ gk :: gi :: gl :: go :: sp :: t) = some (d, gk :: gi :: gl :: go :: sp :: t) := by
      simp only [scanNumber]
      rw [takeWhile_append_stop hdall (by decide), dropWhile_append_stop hdall (by decide),
        if_neg hd]
      dsimp only
      rw [if_neg (show ¬ gk = dotc by decide)]
    have htry : tryUnitsFrom unitAlts (gk :: gi :: gl :: go :: sp :: t) = some (some UnitTok.uKilo, t) := by
      simp [unitAlts, tryUnitsFrom, matchTokCI, tokStr, toLowerChar, gl, gt, xl, xt,
        xk, xg, gk, gi, ga, go, xm, sp, hcont, hcont2]
    simp only [parseQuantityAndUnits, parseQuantityAndUnitsOpt, hstrip, hscan, htry,
      strToQ_all_digits hd hdall, hitem, Option.getD_some]
    simp
  | uKappa =>
    simp only [tokStr, List.cons_append, List.nil_append] at hstrip ⊢
    have hscan : scanNumber (d ++ gk :: sp :: t) = some (d, gk :: sp :: t) := by
      simp only [scanNumber]
      rw [takeWhile_append_stop hdall (by decide), dropWhile_append_stop hdall (by decide),
        if_neg hd]
      dsimp only
      rw [if_neg (show ¬ gk = dotc by decide)]
    have htry : tryUnitsFrom unitAlts (gk :: sp :: t) = some (some UnitTok.uKappa, t) := by
      simp [unitAlts, tryUnitsFrom, matchTokCI, tokStr, toLowerChar, gl, gt, xl, xt,
        xk, xg, gk, gi, ga, go, xm, sp, hcont, hcont2]
    simp only [parseQuantityAndUnits, parseQuantityAndUnitsOpt, hstrip, hscan, htry,
      strToQ_all_digits hd hdall, hitem, Option.getD_some]
    simp
  | uMl =>
    simp only [tokStr, List.cons_append, List.nil_append] at hstrip ⊢
    have hscan : scanNumber (d ++ xm :: xl :: sp :: t) = some (d, xm :: xl :: sp :: t) := by
      simp only [scanNumber]
      rw [takeWhile_append_stop hdall (by decide), dropWhile_append_stop hdall (by decide),
        if_neg hd]
      dsimp only
      rw [if_neg (show ¬ xm = dotc by decide)]
    have htry : tryUnitsFrom unitAlts (xm :: xl :: sp :: t) = some (some UnitTok.uMl, t) := by
      simp [unitAlts, tryUnitsFrom, matchTokCI, tokStr, toLowerChar, gl, gt, xl, xt,
        xk, xg, gk, gi, ga, go, xm, sp, hcont, hcont2]
    simp only [parseQuantityAndUnits, parseQuantityAndUnitsOpt, hstrip, hscan, htry,
      strToQ_all_digits hd hdall, hitem, Option.getD_some]
    simp

/-- C8: a unit token counts as a unit only when glued to the leading number:
"<number> <unit> <text>" parses as a plain count with no unit and the unit
token kept at the start of the residual item text, while "<number><unit>
<text>" parses the unit token as the unit (with its pricing multiplier). -/
theorem unit_adjacency (d t : List MChar) (tok : UnitTok)
    (hd : d ≠ []) (hdall : d.all isDigitB = true) (ht1 : t ≠ [])
    (hth : t.head?.all (fun c => !isSpaceB c) = true)
    (htl : t.getLast?.all (fun c => !isSpaceB c) = true)
    (htnl : nl ∉ t) :
    parseQuantityAndUnits (d ++ sp :: (tokStr tok ++ sp :: t)) =
      (some (digitsToNat d : ℚ), none, none, tokStr tok ++ sp :: t) ∧
    parseQuantityAndUnits (d ++ (tokStr tok ++ sp :: t)) =
      (some (digitsToNat d : ℚ), some tok,
        some (if tok = .uMl then (digitsToNat d : ℚ) / 250 else (digitsToNat d : ℚ)),
        t) := by
  have hdall' : ∀ c ∈ d, isDigitB c = true := List.all_eq_true.mp hdall
  have hth' : ∀ c, t.head? = some c → isSpaceB c = false := by
    intro c hc
    rw [hc] at hth
    simpa using hth
  have htl' : ∀ c, t.getLast? = some c → isSpaceB c = false := by
    intro c hc
    rw [hc] at htl
    simpa using htl
  constructor
  · apply parse_spaced d _ hd hdall'
    · intro c hc
      cases tok <;>
        (simp only [tokStr, List.cons_append, List.head?_cons] at hc
         rw [← Option.some.inj hc]
         decide)
    · intro c hc
      have htok : tokStr tok ≠ [] := by cases tok <;> decide
      rw [List.getLast?_append_of_ne_nil _ (List.cons_ne_nil sp t)] at hc
      cases t with
      | nil => exact absurd rfl ht1
      | cons y ys =>
        rw [List.getLast?_cons_cons] at hc
        exact htl' c hc
    · simp
    · intro hmem
      rcases List.mem_append.mp hmem with hmem1 | hmem2
      · revert hmem1
        cases tok <;> decide
      · rcases List.mem_cons.mp hmem2 with heq | hmem3
        · exact absurd heq (by decide)
        · exact htnl hmem3
  · exact parse_glued d t tok hd hdall' hth' htl' ht1 htnl

theorem unit_adjacency_witness :
    parseQuantityAndUnits [n2, sp, xk, xg, sp, xy] =
      (some (digitsToNat [n2] : ℚ), none, none, [xk, xg, sp, xy]) ∧
    parseQuantityAndUnits [n2, xk, xg, sp, xy] =
      (some (digitsToNat [n2] : ℚ), some UnitTok.uKg,
        some (if UnitTok.uKg = .uMl then (digitsToNat [n2] : ℚ) / 250
          else (digitsToNat [n2] : ℚ)), [xy]) :=
  unit_adjacency [n2] [xy] UnitTok.uKg (by decide) (by decide) (by decide)
    (by decide) (by decide) (by decide)
